import Mathlib

/-!
Verification of the configurator runtime engine: a shallow embedding of the
pricing resolver, visibility resolver, selection store, camera orchestrator
and focus tracker, together with theorems settling the spec claims.

JavaScript records (`Record<string, T>`) are modelled as association lists
with first-match lookup; record update replaces the first binding in place
(or appends), so lookup agrees with JS record semantics.  JS truthiness of
a looked-up string (`undefined` and `""` are falsy) is modelled explicitly.
Prices are integers; camera arithmetic uses exact rationals (per-frame
state update) and exact reals (spherical conversions).
-/

namespace Configurator

/-- First-match association-list lookup, modelling JS record read
`m[key]` (returns `none` for `undefined`). -/
def alookup {α : Type} : List (String × α) → String → Option α
  | [], _ => none
  | (k, v) :: rest, key => if k = key then some v else alookup rest key

/-- Record update `m[key] = v`: replaces the first binding of `key` in
place, or appends a new binding. -/
def aset {α : Type} : List (String × α) → String → α → List (String × α)
  | [], key, v => [(key, v)]
  | (k, w) :: rest, key, v =>
      if k = key then (key, v) :: rest else (k, w) :: aset rest key v

/-- Record deletion `delete m[key]`. -/
def aremove {α : Type} : List (String × α) → String → List (String × α)
  | [], _ => []
  | (k, v) :: rest, key =>
      if k = key then aremove rest key else (k, v) :: aremove rest key

theorem alookup_aset_self {α : Type} (m : List (String × α)) (k : String) (v : α) :
    alookup (aset m k v) k = some v := by
  induction m with
  | nil => simp [aset, alookup]
  | cons p rest ih =>
      obtain ⟨k', w⟩ := p
      by_cases h : k' = k
      · simp [aset, h, alookup]
      · simp [aset, h, alookup, ih]

theorem alookup_aset_ne {α : Type} (m : List (String × α)) (k k' : String) (v : α)
    (h : k' ≠ k) : alookup (aset m k v) k' = alookup m k' := by
  have hk : ¬(k = k') := fun hh => h hh.symm
  induction m with
  | nil => simp [aset, alookup, hk]
  | cons p rest ih =>
      obtain ⟨k₀, w⟩ := p
      by_cases h₀ : k₀ = k
      · subst h₀
        simp [aset, alookup, hk]
      · by_cases h₁ : k₀ = k'
        · simp [aset, alookup, h₀, h₁, h]
        · simp [aset, alookup, h₀, h₁, ih]

theorem alookup_aremove {α : Type} (m : List (String × α)) (k k' : String) :
    alookup (aremove m k) k' = if k' = k then none else alookup m k' := by
  induction m with
  | nil => simp [aremove, alookup]
  | cons p rest ih =>
      obtain ⟨k₀, w⟩ := p
      by_cases h₀ : k₀ = k
      · subst h₀
        by_cases h₁ : k' = k₀
        · subst h₁
          simpa [aremove, alookup] using ih
        · have h₂ : ¬(k₀ = k') := fun hh => h₁ hh.symm
          simp [aremove, alookup, h₁, h₂, ih]
      · by_cases h₁ : k₀ = k'
        · have h₂ : ¬(k' = k) := fun hh => h₀ (h₁.trans hh)
          simp [aremove, alookup, h₀, h₁, h₂]
        · simp [aremove, alookup, h₀, h₁, ih]

/-- Membership of a binding agrees with lookup when the keys are distinct. -/
theorem alookup_eq_some_iff_mem {α : Type} (m : List (String × α)) (k : String) (v : α)
    (hnd : (m.map Prod.fst).Nodup) : alookup m k = some v ↔ (k, v) ∈ m := by
  induction m with
  | nil => simp [alookup]
  | cons p rest ih =>
      obtain ⟨k₀, w⟩ := p
      simp only [List.map_cons, List.nodup_cons] at hnd
      by_cases h₀ : k₀ = k
      · subst h₀
        simp only [alookup, if_pos rfl, List.mem_cons]
        constructor
        · rintro h
          left
          cases h
          rfl
        · rintro (h | h)
          · cases h
            rfl
          · exact absurd (List.mem_map_of_mem Prod.fst h) hnd.1
      · simp only [alookup, if_neg h₀, List.mem_cons]
        rw [ih hnd.2]
        constructor
        · exact fun h => Or.inr h
        · rintro (h | h)
          · cases h
            exact absurd rfl h₀
          · exact h

/-! ## Data model

Translated from the configurator component state: `RadioOption` carries a
unique `value`, an optional legacy flat `price` and an optional visibility
map; a `ConfiguratorGroup` is an ordered list of options; a chapter has an
id, a focus key, groups and an optional chapter-level visibility map. -/

structure RadioOption where
  value : String
  price : Option Int := none
  visibility : Option (List (String × Bool)) := none
  deriving DecidableEq, Repr

structure ConfiguratorGroup where
  id : String
  options : List RadioOption
  deriving DecidableEq, Repr

structure ConfiguratorChapter where
  id : String
  focus : String
  groups : List ConfiguratorGroup
  visibility : Option (List (String × Bool)) := none
  deriving DecidableEq, Repr

/-- `pricingRules : Record<string, Record<string, number>>`. -/
abbrev PricingRules := List (String × List (String × Int))

/-- `selections : Record<string, string>` (group id to selected option value). -/
abbrev Selections := List (String × String)

/-- Reading `selections[groupId]` under a JS truthiness test: both a missing
key (`undefined`) and the empty string are falsy. -/
def truthyLookup (sel : Selections) (key : String) : Option String :=
  match alookup sel key with
  | some v => if v = "" then none else some v
  | none => none

/-! ## Pricing resolver (`calculateOptionPrice`, `totalPrice`,
`handleUpdatePrice`) -/

/-- One step of the canonical-order walk inside `calculateOptionPrice`:
`if (selectedInGroup && rules[selectedInGroup] !== undefined)
finalPrice = rules[selectedInGroup]`. -/
def applyGroup (rules : List (String × Int)) (sel : Selections)
    (price : Int) (group : ConfiguratorGroup) : Int :=
  match truthyLookup sel group.id with
  | none => price
  | some selectedInGroup =>
      match alookup rules selectedInGroup with
      | some p => p
      | none => price

/-- `calculateOptionPrice(optionValue, currentSelections)`: base (diagonal)
price, then a walk over the ordered chapters and their groups overwriting
the price whenever the group's truthy selection has an entry in the
option's rules row. -/
def calculateOptionPrice (orderedChapters : List ConfiguratorChapter)
    (pricingRules : PricingRules) (optionValue : String)
    (currentSelections : Selections) : Int :=
  match alookup pricingRules optionValue with
  | none => 0
  | some rules =>
      let base := (alookup rules optionValue).getD 0
      orderedChapters.foldl
        (fun price chapter => chapter.groups.foldl (applyGroup rules currentSelections) price)
        base

/-- `totalPrice`: sum of `calculateOptionPrice(selected, selections)` over
every group with a truthy selection, walking chapters in order. -/
def totalPrice (orderedChapters : List ConfiguratorChapter)
    (pricingRules : PricingRules) (selections : Selections) : Int :=
  orderedChapters.foldl
    (fun total chapter =>
      chapter.groups.foldl
        (fun total group =>
          match truthyLookup selections group.id with
          | some selected =>
              total + calculateOptionPrice orderedChapters pricingRules selected selections
          | none => total)
        total)
    0

/-- `handleUpdatePrice(targetId, dependencyId, price)`: writes (or, for
`price = none`, deletes) one cell of the pricing matrix, creating the
target row when absent. -/
def handleUpdatePrice (prev : PricingRules) (targetId dependencyId : String)
    (price : Option Int) : PricingRules :=
  let row := (alookup prev targetId).getD []
  let row' :=
    match price with
    | none => aremove row dependencyId
    | some p => aset row dependencyId p
  aset prev targetId row'

/-! ## Concrete pricing scenario of the spec (claim C1) -/

/-- Paint group, ordered first. -/
def paintGroup : ConfiguratorGroup :=
  { id := "paint-group"
    options := [{ value := "red-paint", price := some 500 }] }

/-- Wheel group, ordered second. -/
def wheelGroup : ConfiguratorGroup :=
  { id := "wheel-group"
    options := [{ value := "big-wheels", price := some 300 }] }

/-- A single chapter holding the paint group before the wheel group. -/
def scenarioChapters : List ConfiguratorChapter :=
  [{ id := "body", focus := "overview", groups := [paintGroup, wheelGroup] }]

/-- The scenario's pricing rules
`{red-paint: {red-paint: 500}, big-wheels: {big-wheels: 300, red-paint: 400}}`. -/
def scenarioRules : PricingRules :=
  [("red-paint", [("red-paint", 500)]),
   ("big-wheels", [("big-wheels", 300), ("red-paint", 400)])]

/-- Selections: red paint and big wheels. -/
def scenarioSelections : Selections :=
  [("paint-group", "red-paint"), ("wheel-group", "big-wheels")]

/-! ## Canonical-walk characterization of the pricing resolver -/

/-- The canonical chapter/group walk order used by both pricing and totals. -/
def canonicalGroups (chapters : List ConfiguratorChapter) : List ConfiguratorGroup :=
  chapters.flatMap ConfiguratorChapter.groups

/-- The override (if any) that the canonical walk applies at one group:
the group's truthy selection must have an entry in the option's rules row. -/
def overrideAt (rules : List (String × Int)) (sel : Selections)
    (group : ConfiguratorGroup) : Option Int :=
  match truthyLookup sel group.id with
  | some d => alookup rules d
  | none => none

theorem applyGroup_eq_overrideAt (rules : List (String × Int)) (sel : Selections)
    (price : Int) (group : ConfiguratorGroup) :
    applyGroup rules sel price group = (overrideAt rules sel group).getD price := by
  unfold applyGroup overrideAt
  cases truthyLookup sel group.id with
  | none => rfl
  | some d => cases h : alookup rules d <;> simp [h]

theorem foldl_nested_eq_flatMap {α : Type} (f : α → ConfiguratorGroup → α)
    (chapters : List ConfiguratorChapter) (b : α) :
    chapters.foldl (fun x ch => ch.groups.foldl f x) b
      = (canonicalGroups chapters).foldl f b := by
  induction chapters generalizing b with
  | nil => rfl
  | cons ch rest ih =>
      simp only [canonicalGroups, List.flatMap_cons, List.foldl_cons, List.foldl_append]
      exact ih _

/-- Folding the walk step is taking the last applicable override. -/
theorem foldl_applyGroup_eq_getLast (rules : List (String × Int)) (sel : Selections)
    (l : List ConfiguratorGroup) (b : Int) :
    l.foldl (applyGroup rules sel) b
      = ((l.filterMap (overrideAt rules sel)).getLast?).getD b := by
  induction l using List.reverseRecOn with
  | nil => rfl
  | append_singleton l g ih =>
      rw [List.foldl_append, List.foldl_cons, List.foldl_nil, applyGroup_eq_overrideAt,
        List.filterMap_append]
      cases h : overrideAt rules sel g with
      | none => simp [h, ih]
      | some p => simp [h, List.getLast?_concat]

/-- `calculateOptionPrice` returns the last applicable override along the
canonical walk, defaulting to the diagonal base price (itself defaulting
to 0). -/
theorem calculateOptionPrice_eq_lastOverride (chapters : List ConfiguratorChapter)
    (pricingRules : PricingRules) (v : String) (sel : Selections)
    (rules : List (String × Int)) (h : alookup pricingRules v = some rules) :
    calculateOptionPrice chapters pricingRules v sel
      = (((canonicalGroups chapters).filterMap (overrideAt rules sel)).getLast?).getD
          ((alookup rules v).getD 0) := by
  have hstep : calculateOptionPrice chapters pricingRules v sel
      = (canonicalGroups chapters).foldl (applyGroup rules sel) ((alookup rules v).getD 0) := by
    unfold calculateOptionPrice
    rw [h]
    exact foldl_nested_eq_flatMap _ _ _
  rw [hstep, foldl_applyGroup_eq_getLast]

/-- The resolver reads the selection map only through lookups, so
lookup-equivalent selection maps price identically. -/
theorem calculateOptionPrice_ext (chapters : List ConfiguratorChapter)
    (pricingRules : PricingRules) (v : String) (sel sel' : Selections)
    (h : ∀ k, alookup sel' k = alookup sel k) :
    calculateOptionPrice chapters pricingRules v sel'
      = calculateOptionPrice chapters pricingRules v sel := by
  have htruthy : ∀ k, truthyLookup sel' k = truthyLookup sel k := by
    intro k
    unfold truthyLookup
    rw [h]
  unfold calculateOptionPrice
  cases alookup pricingRules v with
  | none => rfl
  | some rules =>
      have happly : applyGroup rules sel' = applyGroup rules sel := by
        funext price g
        unfold applyGroup
        rw [htruthy]
      simp only [happly]

/-- C1 counterexample: in the spec's concrete scenario the code returns
base price 300 for `big-wheels` (the walk re-applies the diagonal at the
wheel group, after the paint override) and total 800, so the claimed
values 400 and 900 are both false. -/
theorem concreteScenario_claim_false :
    ¬(calculateOptionPrice scenarioChapters scenarioRules "big-wheels" scenarioSelections = 400
      ∧ totalPrice scenarioChapters scenarioRules scenarioSelections = 900) := by
  decide

/-- C1 (amended): in the concrete scenario, `resolvePrice(big-wheels)`
returns 300 (the diagonal base, re-applied at the wheel group after the
paint override 400) and `totalPrice` returns 800. -/
theorem concreteScenario_prices :
    calculateOptionPrice scenarioChapters scenarioRules "big-wheels" scenarioSelections = 300
    ∧ totalPrice scenarioChapters scenarioRules scenarioSelections = 800 := by
  constructor <;> rfl

/-- C2: when two groups of the canonical walk both carry applicable
overrides for option `v` and nothing after the later of them applies,
`calculateOptionPrice` returns the later group's override
(last-writer-wins); moreover the result only depends on the selection
map through lookups, not on its iteration order. -/
theorem resolvePrice_lastWriterWins
    (chapters : List ConfiguratorChapter) (pricingRules : PricingRules)
    (v : String) (sel : Selections) (rules : List (String × Int))
    (g1 g2 : ConfiguratorGroup) (pre mid post : List ConfiguratorGroup)
    (p1 p2 : Int)
    (hrules : alookup pricingRules v = some rules)
    (hwalk : canonicalGroups chapters = pre ++ g1 :: (mid ++ g2 :: post))
    (h1 : overrideAt rules sel g1 = some p1)
    (h2 : overrideAt rules sel g2 = some p2)
    (hpost : ∀ g ∈ post, overrideAt rules sel g = none) :
    calculateOptionPrice chapters pricingRules v sel = p2
    ∧ ∀ sel' : Selections, (∀ k, alookup sel' k = alookup sel k) →
        calculateOptionPrice chapters pricingRules v sel'
          = calculateOptionPrice chapters pricingRules v sel := by
  constructor
  · rw [calculateOptionPrice_eq_lastOverride chapters pricingRules v sel rules hrules, hwalk]
    have hpostnil : post.filterMap (overrideAt rules sel) = [] :=
      List.filterMap_eq_nil_iff.mpr hpost
    rw [List.filterMap_append, List.filterMap_cons, h1, List.filterMap_append,
      List.filterMap_cons, h2, hpostnil]
    have hsplit :
        pre.filterMap (overrideAt rules sel)
            ++ p1 :: (mid.filterMap (overrideAt rules sel) ++ p2 :: [])
          = (pre.filterMap (overrideAt rules sel)
              ++ p1 :: mid.filterMap (overrideAt rules sel)) ++ [p2] := by
      simp
    rw [hsplit, List.getLast?_concat]
    rfl
  · intro sel' hext
    exact calculateOptionPrice_ext chapters pricingRules v sel sel' hext

/-- C2 witness: two chapters, dependencies `a` (earlier) and `b` (later)
both selected with entries 10 and 20 in the rules row of `v`; the resolver
returns the later override 20. -/
theorem resolvePrice_lastWriterWins_witness :
    calculateOptionPrice
      [{ id := "c1", focus := "f1", groups := [{ id := "gA", options := [] }] },
       { id := "c2", focus := "f2", groups := [{ id := "gB", options := [] }] }]
      [("v", [("a", 10), ("b", 20)])] "v"
      [("gA", "a"), ("gB", "b")] = 20 :=
  (resolvePrice_lastWriterWins
    [{ id := "c1", focus := "f1", groups := [{ id := "gA", options := [] }] },
     { id := "c2", focus := "f2", groups := [{ id := "gB", options := [] }] }]
    [("v", [("a", 10), ("b", 20)])] "v"
    [("gA", "a"), ("gB", "b")] [("a", 10), ("b", 20)]
    { id := "gA", options := [] } { id := "gB", options := [] }
    [] [] [] 10 20
    (by decide) (by decide) (by decide) (by decide) (by decide)).1

/-- C3: if option `v` is itself selected in a group of the walk, its rules
row has a diagonal entry, and no later group carries an applicable
override, the resolver returns the diagonal base price — even when an
earlier group carried a dependency override. -/
theorem resolvePrice_ownGroupDiagonal
    (chapters : List ConfiguratorChapter) (pricingRules : PricingRules)
    (v : String) (sel : Selections) (rules : List (String × Int))
    (g : ConfiguratorGroup) (pre post : List ConfiguratorGroup) (basePrice : Int)
    (hrules : alookup pricingRules v = some rules)
    (hbase : alookup rules v = some basePrice)
    (hwalk : canonicalGroups chapters = pre ++ g :: post)
    (hself : truthyLookup sel g.id = some v)
    (hpost : ∀ g' ∈ post, overrideAt rules sel g' = none) :
    calculateOptionPrice chapters pricingRules v sel = basePrice := by
  rw [calculateOptionPrice_eq_lastOverride chapters pricingRules v sel rules hrules, hwalk]
  have hg : overrideAt rules sel g = some basePrice := by
    simp only [overrideAt, hself]
    exact hbase
  have hpostnil : post.filterMap (overrideAt rules sel) = [] :=
    List.filterMap_eq_nil_iff.mpr hpost
  rw [List.filterMap_append, List.filterMap_cons, hg, hpostnil, List.getLast?_concat]
  rfl

/-- C3 witness: the concrete scenario of the spec, where the wheel group's
own diagonal 300 overwrites the earlier paint override 400. -/
theorem resolvePrice_ownGroupDiagonal_witness :
    calculateOptionPrice scenarioChapters scenarioRules "big-wheels" scenarioSelections = 300 :=
  resolvePrice_ownGroupDiagonal scenarioChapters scenarioRules "big-wheels"
    scenarioSelections [("big-wheels", 300), ("red-paint", 400)]
    wheelGroup [paintGroup] [] 300
    (by decide) (by decide) (by decide) (by decide) (by decide)

/-- Folding the per-group accumulation of `totalPrice` is summing a price
function over the truthy-selected values of the walk. -/
theorem foldl_selsum (sel : Selections) (price : String → Int)
    (l : List ConfiguratorGroup) (b : Int) :
    l.foldl
      (fun total g =>
        match truthyLookup sel g.id with
        | some w => total + price w
        | none => total) b
    = b + ((l.filterMap (fun g => truthyLookup sel g.id)).map price).sum := by
  induction l generalizing b with
  | nil => simp
  | cons g rest ih =>
      cases h : truthyLookup sel g.id with
      | none => simp [List.foldl_cons, h, ih, List.filterMap_cons]
      | some w =>
          simp [List.foldl_cons, h, ih, List.filterMap_cons, add_assoc]

/-- A diagonal write on option `v` leaves the price of any other option
unchanged, since only the rules row of `v` is touched. -/
theorem calculateOptionPrice_update_ne (chapters : List ConfiguratorChapter)
    (pricingRules : PricingRules) (sel : Selections) (v w : String) (p : Option Int)
    (hne : w ≠ v) :
    calculateOptionPrice chapters (handleUpdatePrice pricingRules v v p) w sel
      = calculateOptionPrice chapters pricingRules w sel := by
  unfold calculateOptionPrice handleUpdatePrice
  rw [alookup_aset_ne _ _ _ _ hne]

/-- C4: `totalPrice` is the sum of `calculateOptionPrice` over the
truthy-selected option of every group of the canonical walk; and writing
(or deleting) the diagonal rule of an option that is selected in no group
leaves the total unchanged. -/
theorem totalPrice_additivity
    (chapters : List ConfiguratorChapter) (pricingRules : PricingRules) (sel : Selections) :
    totalPrice chapters pricingRules sel
      = (((canonicalGroups chapters).filterMap (fun g => truthyLookup sel g.id)).map
          (fun w => calculateOptionPrice chapters pricingRules w sel)).sum
    ∧ ∀ (v : String) (p : Option Int),
        (∀ g ∈ canonicalGroups chapters, truthyLookup sel g.id ≠ some v) →
        totalPrice chapters (handleUpdatePrice pricingRules v v p) sel
          = totalPrice chapters pricingRules sel := by
  have hsum : ∀ rules : PricingRules,
      totalPrice chapters rules sel
        = (((canonicalGroups chapters).filterMap (fun g => truthyLookup sel g.id)).map
            (fun w => calculateOptionPrice chapters rules w sel)).sum := by
    intro rules
    unfold totalPrice
    rw [foldl_nested_eq_flatMap, foldl_selsum]
    simp
  refine ⟨hsum pricingRules, ?_⟩
  intro v p hnosel
  rw [hsum pricingRules, hsum (handleUpdatePrice pricingRules v v p)]
  apply congrArg
  apply List.map_congr_left
  intro w hw
  obtain ⟨g, hg, hsel⟩ := List.mem_filterMap.mp hw
  have hne : w ≠ v := by
    intro hwv
    exact hnosel g hg (hwv ▸ hsel)
  exact calculateOptionPrice_update_ne chapters pricingRules sel v w p hne

/-- C4 witness: one chapter, one group with `x` selected; writing the
diagonal of the unselected option `y` leaves the total at 5. -/
theorem totalPrice_additivity_witness :
    totalPrice [{ id := "c", focus := "f", groups := [{ id := "g", options := [] }] }]
        (handleUpdatePrice [("x", [("x", 5)])] "y" "y" (some 99)) [("g", "x")]
      = totalPrice [{ id := "c", focus := "f", groups := [{ id := "g", options := [] }] }]
          [("x", [("x", 5)])] [("g", "x")] :=
  (totalPrice_additivity
      [{ id := "c", focus := "f", groups := [{ id := "g", options := [] }] }]
      [("x", [("x", 5)])] [("g", "x")]).2 "y" (some 99) (by decide)

/-- C5: the resolver never fails and defaults to 0 — a missing rules row
prices the option at 0, and a row without a diagonal entry starts from
base 0, so it also returns 0 when no selected dependency applies. -/
theorem resolvePrice_defaults (chapters : List ConfiguratorChapter)
    (pricingRules : PricingRules) (v : String) (sel : Selections) :
    (alookup pricingRules v = none → calculateOptionPrice chapters pricingRules v sel = 0)
    ∧ ∀ rules : List (String × Int), alookup pricingRules v = some rules →
        alookup rules v = none →
        (∀ g ∈ canonicalGroups chapters, overrideAt rules sel g = none) →
        calculateOptionPrice chapters pricingRules v sel = 0 := by
  constructor
  · intro h
    unfold calculateOptionPrice
    rw [h]
  · intro rules hrules hdiag hnone
    rw [calculateOptionPrice_eq_lastOverride chapters pricingRules v sel rules hrules,
      List.filterMap_eq_nil_iff.mpr hnone, hdiag]
    rfl

/-- C5 witness: an option with no rules row prices at 0, and an option
whose row lacks its diagonal (and whose one dependency entry is not
selected) also prices at 0. -/
theorem resolvePrice_defaults_witness :
    calculateOptionPrice
        [{ id := "c", focus := "f", groups := [{ id := "g", options := [] }] }] [] "v" [] = 0
    ∧ calculateOptionPrice
        [{ id := "c", focus := "f", groups := [{ id := "g", options := [] }] }]
        [("v", [("q", 7)])] "v" [] = 0 :=
  ⟨(resolvePrice_defaults
      [{ id := "c", focus := "f", groups := [{ id := "g", options := [] }] }] [] "v" []).1 rfl,
   (resolvePrice_defaults
      [{ id := "c", focus := "f", groups := [{ id := "g", options := [] }] }]
      [("v", [("q", 7)])] "v" []).2 [("q", 7)] rfl rfl (by decide)⟩

/-! ## Visibility resolver (`objectVisibility`) -/

/-- The mesh names an explicit-`false` visibility map contributes: the
`forEach` over `Object.entries` adding every key whose value is `false`. -/
def falseKeys (vis : List (String × Bool)) : List String :=
  vis.filterMap (fun p => if p.2 = false then some p.1 else none)

/-- The `if (x?.visibility)` guard: an absent visibility map contributes
nothing. -/
def visFalseList (vis : Option (List (String × Bool))) : List String :=
  match vis with
  | some v => falseKeys v
  | none => []

/-- Step 1 of `objectVisibility`: hide directives of the active chapter's
own visibility map. -/
def chapterHidden (orderedChapters : List ConfiguratorChapter)
    (activeChapterId : String) : List String :=
  match orderedChapters.find? (fun c => c.id == activeChapterId) with
  | some activeChapter => visFalseList activeChapter.visibility
  | none => []

/-- The hide directives one group contributes: look up the group's
selected value, find the option carrying it, and take its explicit-`false`
entries. -/
def selectedOptionHidden (selections : Selections)
    (group : ConfiguratorGroup) : List String :=
  match alookup selections group.id with
  | some selectedValue =>
      match group.options.find? (fun o => o.value == selectedValue) with
      | some option => visFalseList option.visibility
      | none => []
  | none => []

/-- Step 2 of `objectVisibility`: for every group in every chapter, hide
directives of the currently selected option's visibility map. -/
def optionsHidden (orderedChapters : List ConfiguratorChapter)
    (selections : Selections) : List String :=
  orderedChapters.flatMap (fun chapter =>
    chapter.groups.flatMap (selectedOptionHidden selections))

/-- `objectVisibility`: the set of hidden mesh names (modelled by the list
of names added to the set; only membership is meaningful). -/
def objectVisibility (orderedChapters : List ConfiguratorChapter)
    (selections : Selections) (activeChapterId : String) : List String :=
  chapterHidden orderedChapters activeChapterId ++ optionsHidden orderedChapters selections

/-- Spec reading of source (a) of claim C6: the active chapter's
visibility map has an explicitly-`false` entry for the mesh. -/
def specChapterHides (orderedChapters : List ConfiguratorChapter)
    (activeChapterId m : String) : Prop :=
  ∃ ch, orderedChapters.find? (fun c => c.id == activeChapterId) = some ch ∧
    ∃ vis, ch.visibility = some vis ∧ alookup vis m = some false

/-- Spec reading of source (b) of claim C6: some group's currently
selected option has an explicitly-`false` entry for the mesh. -/
def specOptionHides (orderedChapters : List ConfiguratorChapter)
    (selections : Selections) (m : String) : Prop :=
  ∃ ch ∈ orderedChapters, ∃ g ∈ ch.groups, ∃ v, alookup selections g.id = some v ∧
    ∃ o, g.options.find? (fun o => o.value == v) = some o ∧
      ∃ vis, o.visibility = some vis ∧ alookup vis m = some false

theorem mem_falseKeys (vis : List (String × Bool)) (m : String)
    (hnd : (vis.map Prod.fst).Nodup) :
    m ∈ falseKeys vis ↔ alookup vis m = some false := by
  rw [alookup_eq_some_iff_mem vis m false hnd]
  unfold falseKeys
  rw [List.mem_filterMap]
  constructor
  · rintro ⟨⟨k, b⟩, hmem, hf⟩
    cases b with
    | false =>
        simp at hf
        subst hf
        exact hmem
    | true => simp at hf
  · intro hmem
    exact ⟨(m, false), hmem, by simp⟩

theorem selectedOptionHidden_eq_of_none (sel : Selections) (g : ConfiguratorGroup)
    (h : alookup sel g.id = none) : selectedOptionHidden sel g = [] := by
  unfold selectedOptionHidden
  rw [h]

theorem selectedOptionHidden_eq_of_some (sel : Selections) (g : ConfiguratorGroup)
    (v : String) (h : alookup sel g.id = some v) :
    selectedOptionHidden sel g
      = (match g.options.find? (fun o => o.value == v) with
         | some option => visFalseList option.visibility
         | none => []) := by
  unfold selectedOptionHidden
  rw [h]

/-- Membership in one group's contribution, characterized through the
selection lookup, option search and visibility lookup. -/
theorem mem_selectedOptionHidden (sel : Selections) (g : ConfiguratorGroup) (m : String)
    (hnd : ∀ o ∈ g.options, ∀ vis, o.visibility = some vis → (vis.map Prod.fst).Nodup) :
    m ∈ selectedOptionHidden sel g ↔
      ∃ v, alookup sel g.id = some v ∧
        ∃ o, g.options.find? (fun o => o.value == v) = some o ∧
          ∃ vis, o.visibility = some vis ∧ alookup vis m = some false := by
  constructor
  · intro hm
    cases hsel : alookup sel g.id with
    | none =>
        rw [selectedOptionHidden_eq_of_none sel g hsel] at hm
        exact absurd hm (List.not_mem_nil m)
    | some v =>
        rw [selectedOptionHidden_eq_of_some sel g v hsel] at hm
        cases hfind : g.options.find? (fun o => o.value == v) with
        | none =>
            rw [hfind] at hm
            exact absurd hm (List.not_mem_nil m)
        | some o =>
            rw [hfind] at hm
            replace hm : m ∈ visFalseList o.visibility := hm
            cases hvis : o.visibility with
            | none =>
                rw [hvis] at hm
                exact absurd hm (List.not_mem_nil m)
            | some vis =>
                rw [hvis] at hm
                replace hm : m ∈ falseKeys vis := hm
                have homem : o ∈ g.options := List.mem_of_find?_eq_some hfind
                rw [mem_falseKeys vis m (hnd o homem vis hvis)] at hm
                exact ⟨v, rfl, o, hfind, vis, hvis, hm⟩
  · rintro ⟨v, hsel, o, hfind, vis, hvis, hlook⟩
    rw [selectedOptionHidden_eq_of_some sel g v hsel, hfind]
    show m ∈ visFalseList o.visibility
    rw [hvis]
    show m ∈ falseKeys vis
    have homem : o ∈ g.options := List.mem_of_find?_eq_some hfind
    exact (mem_falseKeys vis m (hnd o homem vis hvis)).mpr hlook

/-- C6: the hidden-mesh set is exactly the union of the active chapter's
explicit-`false` entries and, over every group in every chapter, the
selected option's explicit-`false` entries; `true` entries are ignored, so
no source can remove a mesh hidden by another source. -/
theorem objectVisibility_union (orderedChapters : List ConfiguratorChapter)
    (selections : Selections) (activeChapterId m : String)
    (hch : ∀ ch ∈ orderedChapters, ∀ vis, ch.visibility = some vis →
      (vis.map Prod.fst).Nodup)
    (hopt : ∀ ch ∈ orderedChapters, ∀ g ∈ ch.groups, ∀ o ∈ g.options,
      ∀ vis, o.visibility = some vis → (vis.map Prod.fst).Nodup) :
    m ∈ objectVisibility orderedChapters selections activeChapterId ↔
      specChapterHides orderedChapters activeChapterId m
      ∨ specOptionHides orderedChapters selections m := by
  unfold objectVisibility
  rw [List.mem_append]
  have h1 : m ∈ chapterHidden orderedChapters activeChapterId ↔
      specChapterHides orderedChapters activeChapterId m := by
    cases hfind : orderedChapters.find? (fun c => c.id == activeChapterId) with
    | none =>
        have hred : chapterHidden orderedChapters activeChapterId = [] := by
          unfold chapterHidden
          rw [hfind]
        rw [hred]
        simp [specChapterHides, hfind]
    | some ch =>
        have hmem : ch ∈ orderedChapters := List.mem_of_find?_eq_some hfind
        have hred : chapterHidden orderedChapters activeChapterId
            = visFalseList ch.visibility := by
          unfold chapterHidden
          rw [hfind]
        rw [hred]
        cases hvis : ch.visibility with
        | none => simp [visFalseList, specChapterHides, hfind, hvis]
        | some vis =>
            have hred2 : visFalseList (some vis) = falseKeys vis := rfl
            rw [hred2, mem_falseKeys vis m (hch ch hmem vis hvis)]
            simp [specChapterHides, hfind, hvis]
  have hleaf : ∀ ch ∈ orderedChapters, ∀ g ∈ ch.groups,
      (m ∈ selectedOptionHidden selections g ↔
        ∃ v, alookup selections g.id = some v ∧
          ∃ o, g.options.find? (fun o => o.value == v) = some o ∧
            ∃ vis, o.visibility = some vis ∧ alookup vis m = some false) := by
    intro ch hchmem g hgmem
    exact mem_selectedOptionHidden selections g m
      (fun o ho vis hvis => hopt ch hchmem g hgmem o ho vis hvis)
  have h2 : m ∈ optionsHidden orderedChapters selections ↔
      specOptionHides orderedChapters selections m := by
    unfold optionsHidden specOptionHides
    rw [List.mem_flatMap]
    constructor
    · rintro ⟨ch, hchmem, hm⟩
      rw [List.mem_flatMap] at hm
      obtain ⟨g, hgmem, hm⟩ := hm
      obtain ⟨v, hsel, o, hfind, vis, hvis, hlook⟩ := (hleaf ch hchmem g hgmem).mp hm
      exact ⟨ch, hchmem, g, hgmem, v, hsel, o, hfind, vis, hvis, hlook⟩
    · rintro ⟨ch, hchmem, g, hgmem, v, hsel, o, hfind, vis, hvis, hlook⟩
      refine ⟨ch, hchmem, ?_⟩
      rw [List.mem_flatMap]
      exact ⟨g, hgmem, (hleaf ch hchmem g hgmem).mpr ⟨v, hsel, o, hfind, vis, hvis, hlook⟩⟩
  rw [h1, h2]

/-- C6 witness: a chapter-level rule hides mesh `M` while the selected
option hides mesh `N`; the hidden set is characterized as the union. -/
theorem objectVisibility_union_witness :
    "M" ∈ objectVisibility
        [{ id := "c", focus := "f",
           groups := [{ id := "g",
                        options := [{ value := "x",
                                      visibility := some [("N", false), ("M", true)] }] }],
           visibility := some [("M", false)] }]
        [("g", "x")] "c" ↔
      specChapterHides
        [{ id := "c", focus := "f",
           groups := [{ id := "g",
                        options := [{ value := "x",
                                      visibility := some [("N", false), ("M", true)] }] }],
           visibility := some [("M", false)] }] "c" "M"
      ∨ specOptionHides
        [{ id := "c", focus := "f",
           groups := [{ id := "g",
                        options := [{ value := "x",
                                      visibility := some [("N", false), ("M", true)] }] }],
           visibility := some [("M", false)] }]
        [("g", "x")] "M" :=
  objectVisibility_union _ _ "c" "M" (by decide) (by decide)

/-! ## Selection store

The session state holding the editable chapters and the selection record,
with the handlers that mutate them. -/

structure ConfigState where
  chapters : List ConfiguratorChapter
  selections : Selections
  deriving DecidableEq, Repr

/-- `buildDefaultSelections`: each group's selection is its first option's
value, or the empty string. -/
def buildDefaultSelections (chapters : List ConfiguratorChapter) : Selections :=
  chapters.foldl
    (fun sel ch =>
      ch.groups.foldl
        (fun sel g => aset sel g.id ((g.options.head?.map RadioOption.value).getD "")) sel)
    []

/-- The runtime session right after initialization. -/
def initState (chapters : List ConfiguratorChapter) : ConfigState :=
  { chapters := chapters, selections := buildDefaultSelections chapters }

/-- `updateGroupOptions(chapterId, groupId, updater)`. -/
def updateGroupOptions (chapters : List ConfiguratorChapter)
    (chapterId groupId : String)
    (updater : List RadioOption → List RadioOption) : List ConfiguratorChapter :=
  chapters.map (fun chapter =>
    if chapter.id == chapterId then
      { chapter with
        groups := chapter.groups.map (fun group =>
          if group.id == groupId then { group with options := updater group.options }
          else group) }
    else chapter)

/-- The `remainingOptions` variable of `handleDeleteOption`: captured by
the updater closure, it ends up holding the updater's result at the last
matching (chapter, group) pair, or `[]` when the updater never ran. -/
def capturedOptions (chapters : List ConfiguratorChapter)
    (chapterId groupId : String)
    (updater : List RadioOption → List RadioOption) : List RadioOption :=
  chapters.foldl
    (fun acc chapter =>
      if chapter.id == chapterId then
        chapter.groups.foldl
          (fun acc group => if group.id == groupId then updater group.options else acc)
          acc
      else acc)
    []

/-- The selection-store operations of the claim: set, option removal,
group removal, chapter removal, option/group addition. -/
inductive SelOp where
  | setSelection (groupId value : String)
  | deleteOption (chapterId groupId optionValue : String)
  | deleteGroup (chapterId groupId : String)
  | deleteChapter (chapterId : String)
  | addOption (chapterId groupId : String) (newOption : RadioOption)
  | addGroup (chapterId newGroupId : String) (newOption : RadioOption)
  deriving DecidableEq, Repr

/-- The filter used by `handleDeleteOption`. -/
def removeOptionUpdater (optionValue : String) :
    List RadioOption → List RadioOption :=
  fun options => options.filter (fun opt => !(opt.value == optionValue))

/-- The chapter transform of `handleDeleteGroup`. -/
def deleteGroupChapters (chapters : List ConfiguratorChapter)
    (chapterId groupId : String) : List ConfiguratorChapter :=
  chapters.map (fun chapter =>
    if chapter.id == chapterId then
      { chapter with groups := chapter.groups.filter (fun g => !(g.id == groupId)) }
    else chapter)

/-- The chapter transform of `handleAddGroup`. -/
def addGroupChapters (chapters : List ConfiguratorChapter)
    (chapterId newGroupId : String) (newOption : RadioOption) : List ConfiguratorChapter :=
  chapters.map (fun chapter =>
    if chapter.id == chapterId then
      { chapter with
        groups := chapter.groups ++ [{ id := newGroupId, options := [newOption] }] }
    else chapter)

/-- The selection cleanup of `deleteChapter`: the first found chapter with
that id has its groups' keys deleted. -/
def deleteChapterSelections (chapters : List ConfiguratorChapter)
    (chapterId : String) (sel : Selections) : Selections :=
  match chapters.find? (fun ch => ch.id == chapterId) with
  | some chapter => chapter.groups.foldl (fun sel g => aremove sel g.id) sel
  | none => sel

/-- One selection-store operation, mirroring the corresponding handler. -/
def applySelOp (s : ConfigState) : SelOp → ConfigState
  | .setSelection groupId value =>
      { s with selections := aset s.selections groupId value }
  | .deleteOption chapterId groupId optionValue =>
      let updater := removeOptionUpdater optionValue
      let chapters := updateGroupOptions s.chapters chapterId groupId updater
      let remainingOptions := capturedOptions s.chapters chapterId groupId updater
      let selections :=
        if alookup s.selections groupId = some optionValue then
          aset s.selections groupId ((remainingOptions.head?.map RadioOption.value).getD "")
        else s.selections
      { chapters := chapters, selections := selections }
  | .deleteGroup chapterId groupId =>
      { chapters := deleteGroupChapters s.chapters chapterId groupId,
        selections := aremove s.selections groupId }
  | .deleteChapter chapterId =>
      { chapters := s.chapters.filter (fun chapter => !(chapter.id == chapterId)),
        selections := deleteChapterSelections s.chapters chapterId s.selections }
  | .addOption chapterId groupId newOption =>
      { s with
        chapters := updateGroupOptions s.chapters chapterId groupId
          (fun options => options ++ [newOption]) }
  | .addGroup chapterId newGroupId newOption =>
      { chapters := addGroupChapters s.chapters chapterId newGroupId newOption,
        selections := aset s.selections newGroupId newOption.value }

/-- All group ids of the configuration, in canonical order. -/
def allGroupIds (chapters : List ConfiguratorChapter) : List String :=
  (canonicalGroups chapters).map ConfiguratorGroup.id

/-- Configuration well-formedness: chapter ids and group ids are globally
distinct (the authoring handlers generate fresh random ids). -/
def wellFormed (chapters : List ConfiguratorChapter) : Prop :=
  (chapters.map ConfiguratorChapter.id).Nodup ∧ (allGroupIds chapters).Nodup

/-- The selection invariant for one group: the stored selection (a missing
key reads as the empty string) is either empty or one of the group's
current option values. -/
def groupOk (sel : Selections) (g : ConfiguratorGroup) : Prop :=
  (alookup sel g.id).getD "" = "" ∨
    (alookup sel g.id).getD "" ∈ g.options.map RadioOption.value

/-- The selection invariant of claim C7 over a whole session state. -/
def selInvariant (s : ConfigState) : Prop :=
  ∀ ch ∈ s.chapters, ∀ g ∈ ch.groups, groupOk s.selections g

/-- The preconditions the UI guarantees when invoking a handler: a set
passes one of the group's current option values, and a new group gets a
fresh id. -/
def opValid (s : ConfigState) : SelOp → Prop
  | .setSelection groupId value =>
      ∀ ch ∈ s.chapters, ∀ g ∈ ch.groups, g.id = groupId →
        value ∈ g.options.map RadioOption.value
  | .addGroup _ newGroupId _ => newGroupId ∉ allGroupIds s.chapters
  | _ => True

theorem alookup_foldl_aset_not_mem (defaultVal : ConfiguratorGroup → String)
    (l : List ConfiguratorGroup) (sel : Selections) (k : String)
    (h : k ∉ l.map ConfiguratorGroup.id) :
    alookup (l.foldl (fun sel g => aset sel g.id (defaultVal g)) sel) k = alookup sel k := by
  induction l generalizing sel with
  | nil => rfl
  | cons g rest ih =>
      simp only [List.map_cons, List.mem_cons, not_or] at h
      rw [List.foldl_cons, ih _ h.2, alookup_aset_ne _ _ _ _ h.1]

theorem alookup_foldl_aset_mem (defaultVal : ConfiguratorGroup → String)
    (l : List ConfiguratorGroup) (sel : Selections) (g : ConfiguratorGroup)
    (hg : g ∈ l) (hnd : (l.map ConfiguratorGroup.id).Nodup) :
    alookup (l.foldl (fun sel g => aset sel g.id (defaultVal g)) sel) g.id
      = some (defaultVal g) := by
  induction l generalizing sel with
  | nil => cases hg
  | cons g₀ rest ih =>
      simp only [List.map_cons, List.nodup_cons] at hnd
      rw [List.foldl_cons]
      rcases List.mem_cons.mp hg with h | h
      · cases h
        rw [alookup_foldl_aset_not_mem _ _ _ _ hnd.1]
        exact alookup_aset_self _ _ _
      · exact ih _ h hnd.2

/-- Initialization establishes the invariant: every group's stored
selection is its first option's value or the empty string. -/
theorem initState_invariant (chapters : List ConfiguratorChapter)
    (hwf : wellFormed chapters) : selInvariant (initState chapters) := by
  intro ch hch g hg
  have hgmem : g ∈ canonicalGroups chapters := List.mem_flatMap.mpr ⟨ch, hch, hg⟩
  have hlook : alookup (buildDefaultSelections chapters) g.id
      = some ((g.options.head?.map RadioOption.value).getD "") := by
    unfold buildDefaultSelections
    rw [foldl_nested_eq_flatMap]
    exact alookup_foldl_aset_mem _ _ _ g hgmem hwf.2
  show groupOk (buildDefaultSelections chapters) g
  unfold groupOk
  rw [hlook]
  cases hopt : g.options with
  | nil =>
      left
      simp [hopt]
  | cons o os =>
      right
      simp [hopt]

theorem selInvariant_setSelection (s : ConfigState) (groupId value : String)
    (hinv : selInvariant s) (hvalid : opValid s (.setSelection groupId value)) :
    selInvariant (applySelOp s (.setSelection groupId value)) := by
  intro ch hch g hg
  show groupOk (aset s.selections groupId value) g
  unfold groupOk
  by_cases hid : g.id = groupId
  · rw [hid, alookup_aset_self]
    right
    have := hvalid ch hch g hg hid
    simpa using this
  · rw [alookup_aset_ne _ _ _ _ hid]
    exact hinv ch hch g hg

theorem allGroupIds_cons (c : ConfiguratorChapter) (cs : List ConfiguratorChapter) :
    allGroupIds (c :: cs) = c.groups.map ConfiguratorGroup.id ++ allGroupIds cs := by
  unfold allGroupIds canonicalGroups
  simp

theorem updateGroupOptions_chapterIds (chapters : List ConfiguratorChapter)
    (chapterId groupId : String) (updater : List RadioOption → List RadioOption) :
    (updateGroupOptions chapters chapterId groupId updater).map ConfiguratorChapter.id
      = chapters.map ConfiguratorChapter.id := by
  unfold updateGroupOptions
  rw [List.map_map]
  apply List.map_congr_left
  intro ch hch
  by_cases h : ch.id = chapterId <;> simp [h]

theorem updateGroupOptions_groupIds (chapters : List ConfiguratorChapter)
    (chapterId groupId : String) (updater : List RadioOption → List RadioOption) :
    allGroupIds (updateGroupOptions chapters chapterId groupId updater)
      = allGroupIds chapters := by
  induction chapters with
  | nil => rfl
  | cons ch rest ih =>
      have hcons : updateGroupOptions (ch :: rest) chapterId groupId updater
          = (if (ch.id == chapterId) = true then
              { ch with
                groups := ch.groups.map (fun group =>
                  if group.id == groupId then { group with options := updater group.options }
                  else group) }
            else ch) :: updateGroupOptions rest chapterId groupId updater := by
        unfold updateGroupOptions
        rw [List.map_cons]
      rw [hcons, allGroupIds_cons, allGroupIds_cons, ih]
      by_cases h : ch.id = chapterId
      · have hb : (ch.id == chapterId) = true := by simp [h]
        simp only [hb, if_pos]
        congr 1
        rw [List.map_map]
        apply List.map_congr_left
        intro g hg
        by_cases h₂ : g.id = groupId <;> simp [h₂]
      · have hb : ¬((ch.id == chapterId) = true) := by simp [h]
        simp [hb]

/-- Every chapter produced by `updateGroupOptions` keeps its id and its
groups' ids; only the addressed group has the updater applied, all other
groups keep their options. -/
theorem mem_updateGroupOptions (chapters : List ConfiguratorChapter)
    (chapterId groupId : String) (updater : List RadioOption → List RadioOption)
    (ch' : ConfiguratorChapter)
    (h : ch' ∈ updateGroupOptions chapters chapterId groupId updater) :
    ∃ ch ∈ chapters, ch'.id = ch.id ∧
      ∀ g' ∈ ch'.groups, ∃ g ∈ ch.groups, g'.id = g.id ∧
        ((ch.id = chapterId ∧ g.id = groupId ∧ g'.options = updater g.options)
          ∨ (¬(ch.id = chapterId ∧ g.id = groupId) ∧ g'.options = g.options)) := by
  unfold updateGroupOptions at h
  obtain ⟨ch, hch, heq⟩ := List.mem_map.mp h
  refine ⟨ch, hch, ?_⟩
  by_cases hc : (ch.id == chapterId) = true
  · rw [if_pos hc] at heq
    subst heq
    refine ⟨rfl, ?_⟩
    intro g' hg'
    obtain ⟨g, hg, heq₂⟩ := List.mem_map.mp hg'
    refine ⟨g, hg, ?_⟩
    by_cases hgid : (g.id == groupId) = true
    · rw [if_pos hgid] at heq₂
      subst heq₂
      exact ⟨rfl, Or.inl ⟨eq_of_beq hc, eq_of_beq hgid, rfl⟩⟩
    · rw [if_neg hgid] at heq₂
      subst heq₂
      refine ⟨rfl, Or.inr ⟨?_, rfl⟩⟩
      rintro ⟨-, hg2⟩
      exact hgid (beq_iff_eq.mpr hg2)
  · rw [if_neg hc] at heq
    subst heq
    refine ⟨rfl, fun g' hg' => ⟨g', hg', rfl, Or.inr ⟨?_, rfl⟩⟩⟩
    rintro ⟨hc2, -⟩
    exact hc (beq_iff_eq.mpr hc2)

/-- Every chapter produced by `deleteGroupChapters` keeps its id, and its
groups all come from the original chapter. -/
theorem mem_deleteGroupChapters (chapters : List ConfiguratorChapter)
    (chapterId groupId : String) (ch' : ConfiguratorChapter)
    (h : ch' ∈ deleteGroupChapters chapters chapterId groupId) :
    ∃ ch ∈ chapters, ch'.id = ch.id ∧ ∀ g' ∈ ch'.groups, g' ∈ ch.groups := by
  unfold deleteGroupChapters at h
  obtain ⟨ch, hch, heq⟩ := List.mem_map.mp h
  refine ⟨ch, hch, ?_⟩
  by_cases hc : (ch.id == chapterId) = true
  · rw [if_pos hc] at heq
    subst heq
    exact ⟨rfl, fun g' hg' => (List.mem_filter.mp hg').1⟩
  · rw [if_neg hc] at heq
    subst heq
    exact ⟨rfl, fun g' hg' => hg'⟩

/-- Every chapter produced by `addGroupChapters` keeps its id, and each of
its groups is either an original group or the freshly added one. -/
theorem mem_addGroupChapters (chapters : List ConfiguratorChapter)
    (chapterId newGroupId : String) (newOption : RadioOption) (ch' : ConfiguratorChapter)
    (h : ch' ∈ addGroupChapters chapters chapterId newGroupId newOption) :
    ∃ ch ∈ chapters, ch'.id = ch.id ∧
      ∀ g' ∈ ch'.groups, g' ∈ ch.groups
        ∨ g' = { id := newGroupId, options := [newOption] } := by
  unfold addGroupChapters at h
  obtain ⟨ch, hch, heq⟩ := List.mem_map.mp h
  refine ⟨ch, hch, ?_⟩
  by_cases hc : (ch.id == chapterId) = true
  · rw [if_pos hc] at heq
    subst heq
    refine ⟨rfl, ?_⟩
    intro g' hg'
    rcases List.mem_append.mp hg' with h₁ | h₁
    · exact Or.inl h₁
    · rcases List.mem_singleton.mp h₁ with rfl
      exact Or.inr rfl
  · rw [if_neg hc] at heq
    subst heq
    exact ⟨rfl, fun g' hg' => Or.inl hg'⟩

theorem mem_allGroupIds (chapters : List ConfiguratorChapter) (ch : ConfiguratorChapter)
    (g : ConfiguratorGroup) (hch : ch ∈ chapters) (hg : g ∈ ch.groups) :
    g.id ∈ allGroupIds chapters :=
  List.mem_map_of_mem _ (List.mem_flatMap.mpr ⟨ch, hch, hg⟩)

/-- Distinct chapters of a configuration with globally distinct group ids
have disjoint group ids. -/
theorem groupIds_disjoint_of_nodup (chapters : List ConfiguratorChapter)
    (hnd : (allGroupIds chapters).Nodup) :
    ∀ ch₁ ∈ chapters, ∀ ch₂ ∈ chapters, ch₁ ≠ ch₂ →
      ∀ g₁ ∈ ch₁.groups, ∀ g₂ ∈ ch₂.groups, g₁.id ≠ g₂.id := by
  induction chapters with
  | nil =>
      intro ch₁ h
      cases h
  | cons c rest ih =>
      rw [allGroupIds_cons, List.nodup_append] at hnd
      intro ch₁ hch₁ ch₂ hch₂ hne g₁ hg₁ g₂ hg₂ hid
      rcases List.mem_cons.mp hch₁ with h₁ | h₁ <;> rcases List.mem_cons.mp hch₂ with h₂ | h₂
      · exact hne (h₁.trans h₂.symm)
      · subst h₁
        have hmem : g₁.id ∈ allGroupIds rest := by
          rw [hid]
          exact mem_allGroupIds rest ch₂ g₂ h₂ hg₂
        exact hnd.2.2 (List.mem_map_of_mem _ hg₁) hmem
      · subst h₂
        have hmem : g₂.id ∈ allGroupIds rest := by
          rw [← hid]
          exact mem_allGroupIds rest ch₁ g₁ h₁ hg₁
        exact hnd.2.2 (List.mem_map_of_mem _ hg₂) hmem
      · exact ih hnd.2.1 ch₁ h₁ ch₂ h₂ hne g₁ hg₁ g₂ hg₂ hid

theorem capturedOptions_inner_skip (groupId : String)
    (updater : List RadioOption → List RadioOption)
    (groups : List ConfiguratorGroup) (acc : List RadioOption)
    (h : ∀ g ∈ groups, g.id ≠ groupId) :
    groups.foldl
      (fun acc group => if group.id == groupId then updater group.options else acc)
      acc = acc := by
  induction groups generalizing acc with
  | nil => rfl
  | cons g rest ih =>
      rw [List.foldl_cons]
      have hg : ¬((g.id == groupId) = true) := by
        simp [h g (List.mem_cons_self g rest)]
      rw [if_neg hg]
      exact ih _ (fun g' hg' => h g' (List.mem_cons_of_mem g hg'))

theorem capturedOptions_chapters_skip (chapterId groupId : String)
    (updater : List RadioOption → List RadioOption)
    (cs : List ConfiguratorChapter) (acc : List RadioOption)
    (h : ∀ c ∈ cs, c.id ≠ chapterId) :
    cs.foldl
      (fun acc chapter =>
        if chapter.id == chapterId then
          chapter.groups.foldl
            (fun acc group => if group.id == groupId then updater group.options else acc)
            acc
        else acc)
      acc = acc := by
  induction cs generalizing acc with
  | nil => rfl
  | cons c rest ih =>
      rw [List.foldl_cons]
      have hc : ¬((c.id == chapterId) = true) := by
        simp [h c (List.mem_cons_self c rest)]
      rw [if_neg hc]
      exact ih _ (fun c' hc' => h c' (List.mem_cons_of_mem c hc'))

/-- When the addressed group is located (uniquely) in the addressed
chapter, the captured `remainingOptions` is the updater's result on that
group's options. -/
theorem capturedOptions_found (chapterId groupId : String)
    (updater : List RadioOption → List RadioOption)
    (c1 c2 : List ConfiguratorChapter) (ch : ConfiguratorChapter)
    (g1 g2 : List ConfiguratorGroup) (g : ConfiguratorGroup)
    (hgs : ch.groups = g1 ++ g :: g2)
    (hcid : ch.id = chapterId) (hgid : g.id = groupId)
    (hc1 : ∀ c ∈ c1, c.id ≠ chapterId)
    (hc2 : ∀ c ∈ c2, c.id ≠ chapterId)
    (hg2 : ∀ g' ∈ g2, g'.id ≠ groupId) :
    capturedOptions (c1 ++ ch :: c2) chapterId groupId updater = updater g.options := by
  unfold capturedOptions
  rw [List.foldl_append, capturedOptions_chapters_skip chapterId groupId updater c1 _ hc1,
    List.foldl_cons]
  have hcb : (ch.id == chapterId) = true := by simp [hcid]
  rw [if_pos hcb, hgs, List.foldl_append, List.foldl_cons]
  have hgb : (g.id == groupId) = true := by simp [hgid]
  rw [if_pos hgb, capturedOptions_inner_skip groupId updater g2 _ hg2]
  exact capturedOptions_chapters_skip chapterId groupId updater c2 _ hc2

theorem wellFormed_updateGroupOptions (chapters : List ConfiguratorChapter)
    (chapterId groupId : String) (updater : List RadioOption → List RadioOption)
    (hwf : wellFormed chapters) :
    wellFormed (updateGroupOptions chapters chapterId groupId updater) := by
  constructor
  · rw [updateGroupOptions_chapterIds]
    exact hwf.1
  · rw [updateGroupOptions_groupIds]
    exact hwf.2

theorem deleteGroupChapters_chapterIds (chapters : List ConfiguratorChapter)
    (chapterId groupId : String) :
    (deleteGroupChapters chapters chapterId groupId).map ConfiguratorChapter.id
      = chapters.map ConfiguratorChapter.id := by
  unfold deleteGroupChapters
  rw [List.map_map]
  apply List.map_congr_left
  intro ch hch
  by_cases h : ch.id = chapterId <;> simp [h]

theorem allGroupIds_deleteGroup_sublist (chapters : List ConfiguratorChapter)
    (chapterId groupId : String) :
    (allGroupIds (deleteGroupChapters chapters chapterId groupId)).Sublist
      (allGroupIds chapters) := by
  induction chapters with
  | nil => exact List.Sublist.refl _
  | cons ch rest ih =>
      have hcons : deleteGroupChapters (ch :: rest) chapterId groupId
          = (if (ch.id == chapterId) = true then
              { ch with groups := ch.groups.filter (fun g => !(g.id == groupId)) }
            else ch) :: deleteGroupChapters rest chapterId groupId := rfl
      rw [hcons, allGroupIds_cons, allGroupIds_cons]
      refine List.Sublist.append ?_ ih
      by_cases h : (ch.id == chapterId) = true
      · rw [if_pos h]
        exact (List.filter_sublist _).map _
      · rw [if_neg h]

theorem wellFormed_deleteGroup (chapters : List ConfiguratorChapter)
    (chapterId groupId : String) (hwf : wellFormed chapters) :
    wellFormed (deleteGroupChapters chapters chapterId groupId) := by
  constructor
  · rw [deleteGroupChapters_chapterIds]
    exact hwf.1
  · exact (allGroupIds_deleteGroup_sublist chapters chapterId groupId).nodup hwf.2

theorem allGroupIds_filter_sublist (chapters : List ConfiguratorChapter)
    (p : ConfiguratorChapter → Bool) :
    (allGroupIds (chapters.filter p)).Sublist (allGroupIds chapters) := by
  induction chapters with
  | nil => exact List.Sublist.refl _
  | cons ch rest ih =>
      rw [List.filter_cons]
      by_cases h : p ch = true
      · rw [if_pos h, allGroupIds_cons, allGroupIds_cons]
        exact List.Sublist.append (List.Sublist.refl _) ih
      · rw [if_neg h, allGroupIds_cons]
        exact ih.trans (List.sublist_append_right _ _)

theorem wellFormed_deleteChapter (chapters : List ConfiguratorChapter)
    (chapterId : String) (hwf : wellFormed chapters) :
    wellFormed (chapters.filter (fun chapter => !(chapter.id == chapterId))) := by
  constructor
  · exact ((List.filter_sublist _).map _).nodup hwf.1
  · exact (allGroupIds_filter_sublist chapters _).nodup hwf.2

theorem addGroupChapters_eq_self (chapters : List ConfiguratorChapter)
    (chapterId newGroupId : String) (newOption : RadioOption)
    (h : ∀ c ∈ chapters, c.id ≠ chapterId) :
    addGroupChapters chapters chapterId newGroupId newOption = chapters := by
  induction chapters with
  | nil => rfl
  | cons c rest ih =>
      have hcons : addGroupChapters (c :: rest) chapterId newGroupId newOption
          = (if (c.id == chapterId) = true then
              { c with groups := c.groups ++ [{ id := newGroupId, options := [newOption] }] }
            else c) :: addGroupChapters rest chapterId newGroupId newOption := rfl
      have hc : ¬((c.id == chapterId) = true) := by
        simp [h c (List.mem_cons_self c rest)]
      rw [hcons, if_neg hc, ih (fun c' hc' => h c' (List.mem_cons_of_mem c hc'))]

theorem mem_allGroupIds_addGroup (chapters : List ConfiguratorChapter)
    (chapterId newGroupId : String) (newOption : RadioOption) (x : String)
    (h : x ∈ allGroupIds (addGroupChapters chapters chapterId newGroupId newOption)) :
    x ∈ allGroupIds chapters ∨ x = newGroupId := by
  induction chapters with
  | nil => exact absurd h (List.not_mem_nil x)
  | cons c rest ih =>
      have hcons : addGroupChapters (c :: rest) chapterId newGroupId newOption
          = (if (c.id == chapterId) = true then
              { c with groups := c.groups ++ [{ id := newGroupId, options := [newOption] }] }
            else c) :: addGroupChapters rest chapterId newGroupId newOption := rfl
      rw [hcons, allGroupIds_cons] at h
      rw [allGroupIds_cons]
      rcases List.mem_append.mp h with h₁ | h₁
      · by_cases hc : (c.id == chapterId) = true
        · rw [if_pos hc] at h₁
          replace h₁ : x ∈ (c.groups
              ++ [({ id := newGroupId, options := [newOption] } : ConfiguratorGroup)]).map
                ConfiguratorGroup.id := h₁
          rw [List.map_append] at h₁
          rcases List.mem_append.mp h₁ with h₂ | h₂
          · exact Or.inl (List.mem_append_left _ h₂)
          · right
            simpa using h₂
        · rw [if_neg hc] at h₁
          exact Or.inl (List.mem_append_left _ h₁)
      · rcases ih h₁ with h₂ | h₂
        · exact Or.inl (List.mem_append_right _ h₂)
        · exact Or.inr h₂

theorem allGroupIds_addGroup_nodup (chapterId newGroupId : String) (newOption : RadioOption)
    (chapters : List ConfiguratorChapter)
    (hcnd : (chapters.map ConfiguratorChapter.id).Nodup)
    (hgnd : (allGroupIds chapters).Nodup)
    (hfresh : newGroupId ∉ allGroupIds chapters) :
    (allGroupIds (addGroupChapters chapters chapterId newGroupId newOption)).Nodup := by
  induction chapters with
  | nil => exact List.nodup_nil
  | cons c rest ih =>
      rw [List.map_cons, List.nodup_cons] at hcnd
      rw [allGroupIds_cons, List.nodup_append] at hgnd
      rw [allGroupIds_cons, List.mem_append] at hfresh
      push_neg at hfresh
      have hcons : addGroupChapters (c :: rest) chapterId newGroupId newOption
          = (if (c.id == chapterId) = true then
              { c with groups := c.groups ++ [{ id := newGroupId, options := [newOption] }] }
            else c) :: addGroupChapters rest chapterId newGroupId newOption := rfl
      rw [hcons, allGroupIds_cons, List.nodup_append]
      by_cases hc : c.id = chapterId
      · have hcb : (c.id == chapterId) = true := by simp [hc]
        rw [if_pos hcb]
        have hrest : addGroupChapters rest chapterId newGroupId newOption = rest := by
          apply addGroupChapters_eq_self
          intro c' hc' heq
          apply hcnd.1
          have hcc : c.id = c'.id := hc.trans heq.symm
          rw [hcc]
          exact List.mem_map_of_mem _ hc'
        rw [hrest]
        refine ⟨?_, hgnd.2.1, ?_⟩
        · simp only [List.map_append, List.nodup_append]
          refine ⟨hgnd.1, by simp, ?_⟩
          intro x hx hx2
          simp at hx2
          subst hx2
          exact hfresh.1 hx
        · intro x hx hx2
          simp only [List.map_append] at hx
          rcases List.mem_append.mp hx with h₁ | h₁
          · exact hgnd.2.2 h₁ hx2
          · simp at h₁
            subst h₁
            exact hfresh.2 hx2
      · have hcb : ¬((c.id == chapterId) = true) := by simp [hc]
        rw [if_neg hcb]
        refine ⟨hgnd.1, ih hcnd.2 hgnd.2.1 hfresh.2, ?_⟩
        intro x hx hx2
        rcases mem_allGroupIds_addGroup rest chapterId newGroupId newOption x hx2 with h₁ | h₁
        · exact hgnd.2.2 hx h₁
        · subst h₁
          exact hfresh.1 hx

theorem wellFormed_addGroup (chapters : List ConfiguratorChapter)
    (chapterId newGroupId : String) (newOption : RadioOption)
    (hwf : wellFormed chapters) (hfresh : newGroupId ∉ allGroupIds chapters) :
    wellFormed (addGroupChapters chapters chapterId newGroupId newOption) := by
  constructor
  · have hids : (addGroupChapters chapters chapterId newGroupId newOption).map
        ConfiguratorChapter.id = chapters.map ConfiguratorChapter.id := by
      unfold addGroupChapters
      rw [List.map_map]
      apply List.map_congr_left
      intro ch hch
      by_cases h : ch.id = chapterId <;> simp [h]
    rw [hids]
    exact hwf.1
  · exact allGroupIds_addGroup_nodup chapterId newGroupId newOption chapters hwf.1 hwf.2 hfresh

theorem alookup_foldl_aremove (gs : List ConfiguratorGroup) (sel : Selections) (k : String) :
    alookup (gs.foldl (fun sel g => aremove sel g.id) sel) k = none
    ∨ alookup (gs.foldl (fun sel g => aremove sel g.id) sel) k = alookup sel k := by
  induction gs generalizing sel with
  | nil => exact Or.inr rfl
  | cons g rest ih =>
      rw [List.foldl_cons]
      rcases ih (aremove sel g.id) with h | h
      · exact Or.inl h
      · rw [h, alookup_aremove]
        by_cases hk : k = g.id
        · rw [if_pos hk]
          exact Or.inl rfl
        · rw [if_neg hk]
          exact Or.inr rfl

theorem nodup_groupIds_of_mem (chapters : List ConfiguratorChapter)
    (hnd : (allGroupIds chapters).Nodup) (ch : ConfiguratorChapter)
    (hch : ch ∈ chapters) : (ch.groups.map ConfiguratorGroup.id).Nodup := by
  induction chapters with
  | nil => cases hch
  | cons c rest ih =>
      rw [allGroupIds_cons, List.nodup_append] at hnd
      rcases List.mem_cons.mp hch with h | h
      · subst h
        exact hnd.1
      · exact ih hnd.2.1 h

theorem capturedOptions_stay (chapterId groupId : String)
    (updater : List RadioOption → List RadioOption)
    (cs : List ConfiguratorChapter) (acc : List RadioOption)
    (h : ∀ c ∈ cs, c.id = chapterId → ∀ g ∈ c.groups, g.id ≠ groupId) :
    cs.foldl
      (fun acc chapter =>
        if chapter.id == chapterId then
          chapter.groups.foldl
            (fun acc group => if group.id == groupId then updater group.options else acc)
            acc
        else acc)
      acc = acc := by
  induction cs generalizing acc with
  | nil => rfl
  | cons c rest ih =>
      rw [List.foldl_cons]
      by_cases hc : (c.id == chapterId) = true
      · rw [if_pos hc,
          capturedOptions_inner_skip groupId updater c.groups acc
            (h c (List.mem_cons_self c rest) (eq_of_beq hc))]
        exact ih _ (fun c' hc' => h c' (List.mem_cons_of_mem c hc'))
      · rw [if_neg hc]
        exact ih _ (fun c' hc' => h c' (List.mem_cons_of_mem c hc'))

theorem capturedOptions_empty (chapters : List ConfiguratorChapter)
    (chapterId groupId : String) (updater : List RadioOption → List RadioOption)
    (h : ∀ c ∈ chapters, c.id = chapterId → ∀ g ∈ c.groups, g.id ≠ groupId) :
    capturedOptions chapters chapterId groupId updater = [] := by
  unfold capturedOptions
  exact capturedOptions_stay chapterId groupId updater chapters [] h

/-- With a well-formed configuration, the captured `remainingOptions` at a
group actually located in the addressed chapter is the updater's result. -/
theorem capturedOptions_of_located (chapters : List ConfiguratorChapter)
    (chapterId groupId : String) (updater : List RadioOption → List RadioOption)
    (hwf : wellFormed chapters)
    (ch : ConfiguratorChapter) (g : ConfiguratorGroup)
    (hch : ch ∈ chapters) (hg : g ∈ ch.groups)
    (hcid : ch.id = chapterId) (hgid : g.id = groupId) :
    capturedOptions chapters chapterId groupId updater = updater g.options := by
  obtain ⟨c1, c2, hchs⟩ := List.append_of_mem hch
  obtain ⟨g1, g2, hgs⟩ := List.append_of_mem hg
  have hcnd := hwf.1
  rw [hchs, List.map_append, List.map_cons, List.nodup_append] at hcnd
  have hc1 : ∀ c ∈ c1, c.id ≠ chapterId := by
    intro c hc heq
    have hcc : c.id = ch.id := heq.trans hcid.symm
    refine hcnd.2.2 (List.mem_map_of_mem _ hc) ?_
    rw [hcc]
    exact List.mem_cons_self _ _
  have hc2 : ∀ c ∈ c2, c.id ≠ chapterId := by
    intro c hc heq
    have hnd2 := hcnd.2.1
    rw [List.nodup_cons] at hnd2
    apply hnd2.1
    have hcc : ch.id = c.id := hcid.trans heq.symm
    rw [hcc]
    exact List.mem_map_of_mem _ hc
  have hgndall : (ch.groups.map ConfiguratorGroup.id).Nodup :=
    nodup_groupIds_of_mem chapters hwf.2 ch hch
  rw [hgs, List.map_append, List.map_cons, List.nodup_append, List.nodup_cons] at hgndall
  have hg2 : ∀ g' ∈ g2, g'.id ≠ groupId := by
    intro g' hg' heq
    apply hgndall.2.1.1
    have hgg : g.id = g'.id := hgid.trans heq.symm
    rw [hgg]
    exact List.mem_map_of_mem _ hg'
  rw [hchs]
  exact capturedOptions_found chapterId groupId updater c1 c2 ch g1 g2 g hgs hcid hgid
    hc1 hc2 hg2

theorem applySelOp_deleteOption_eq (s : ConfigState)
    (chapterId groupId optionValue : String) :
    applySelOp s (.deleteOption chapterId groupId optionValue)
      = { chapters := updateGroupOptions s.chapters chapterId groupId
            (removeOptionUpdater optionValue),
          selections :=
            if alookup s.selections groupId = some optionValue then
              aset s.selections groupId
                (((capturedOptions s.chapters chapterId groupId
                    (removeOptionUpdater optionValue)).head?.map RadioOption.value).getD "")
            else s.selections } := rfl

theorem selInvariant_addOption (s : ConfigState) (chapterId groupId : String)
    (newOption : RadioOption) (hinv : selInvariant s) :
    selInvariant (applySelOp s (.addOption chapterId groupId newOption)) := by
  intro ch' hch' g' hg'
  replace hch' : ch' ∈ updateGroupOptions s.chapters chapterId groupId
      (fun options => options ++ [newOption]) := hch'
  obtain ⟨ch, hch, hcid, hgr⟩ := mem_updateGroupOptions _ _ _ _ ch' hch'
  obtain ⟨g, hg, hgid, hopts⟩ := hgr g' hg'
  have hold := hinv ch hch g hg
  show groupOk s.selections g'
  unfold groupOk at hold ⊢
  rw [hgid]
  rcases hold with h | h
  · exact Or.inl h
  · right
    rcases hopts with ⟨-, -, he⟩ | ⟨-, he⟩ <;> rw [he]
    · rw [List.map_append]
      exact List.mem_append_left _ h
    · exact h

theorem selInvariant_deleteGroup (s : ConfigState) (chapterId groupId : String)
    (hinv : selInvariant s) :
    selInvariant (applySelOp s (.deleteGroup chapterId groupId)) := by
  intro ch' hch' g' hg'
  replace hch' : ch' ∈ deleteGroupChapters s.chapters chapterId groupId := hch'
  obtain ⟨ch, hch, hcid, hgr⟩ := mem_deleteGroupChapters _ _ _ _ hch'
  have hg : g' ∈ ch.groups := hgr g' hg'
  have hold := hinv ch hch g' hg
  show groupOk (aremove s.selections groupId) g'
  unfold groupOk at hold ⊢
  rw [alookup_aremove]
  by_cases hk : g'.id = groupId
  · rw [if_pos hk]
    exact Or.inl rfl
  · rw [if_neg hk]
    exact hold

theorem selInvariant_deleteChapter (s : ConfigState) (chapterId : String)
    (hinv : selInvariant s) :
    selInvariant (applySelOp s (.deleteChapter chapterId)) := by
  intro ch' hch' g' hg'
  replace hch' : ch' ∈ s.chapters.filter (fun chapter => !(chapter.id == chapterId)) := hch'
  have hch : ch' ∈ s.chapters := (List.mem_filter.mp hch').1
  have hold := hinv ch' hch g' hg'
  show groupOk (deleteChapterSelections s.chapters chapterId s.selections) g'
  cases hf : s.chapters.find? (fun ch => ch.id == chapterId) with
  | none =>
      have hred : deleteChapterSelections s.chapters chapterId s.selections
          = s.selections := by
        unfold deleteChapterSelections
        rw [hf]
      rw [hred]
      exact hold
  | some chd =>
      have hred : deleteChapterSelections s.chapters chapterId s.selections
          = chd.groups.foldl (fun sel g => aremove sel g.id) s.selections := by
        unfold deleteChapterSelections
        rw [hf]
      rw [hred]
      unfold groupOk at hold ⊢
      rcases alookup_foldl_aremove chd.groups s.selections g'.id with h | h
      · rw [h]
        exact Or.inl rfl
      · rw [h]
        exact hold

theorem selInvariant_addGroup (s : ConfigState) (chapterId newGroupId : String)
    (newOption : RadioOption) (hinv : selInvariant s)
    (hfresh : newGroupId ∉ allGroupIds s.chapters) :
    selInvariant (applySelOp s (.addGroup chapterId newGroupId newOption)) := by
  intro ch' hch' g' hg'
  replace hch' : ch' ∈ addGroupChapters s.chapters chapterId newGroupId newOption := hch'
  obtain ⟨ch, hch, hcid, hgr⟩ := mem_addGroupChapters _ _ _ _ _ hch'
  show groupOk (aset s.selections newGroupId newOption.value) g'
  rcases hgr g' hg' with hold | hnew
  · have hne : g'.id ≠ newGroupId := by
      intro heq
      apply hfresh
      rw [← heq]
      exact mem_allGroupIds s.chapters ch g' hch hold
    unfold groupOk
    rw [alookup_aset_ne _ _ _ _ hne]
    exact hinv ch hch g' hold
  · subst hnew
    show (alookup (aset s.selections newGroupId newOption.value) newGroupId).getD "" = ""
      ∨ (alookup (aset s.selections newGroupId newOption.value) newGroupId).getD ""
          ∈ [newOption].map RadioOption.value
    rw [alookup_aset_self]
    right
    simp

theorem selInvariant_deleteOption (s : ConfigState)
    (chapterId groupId optionValue : String)
    (hwf : wellFormed s.chapters) (hinv : selInvariant s) :
    selInvariant (applySelOp s (.deleteOption chapterId groupId optionValue)) := by
  rw [applySelOp_deleteOption_eq]
  intro ch' hch' g' hg'
  replace hch' : ch' ∈ updateGroupOptions s.chapters chapterId groupId
      (removeOptionUpdater optionValue) := hch'
  obtain ⟨ch, hch, hcid, hgr⟩ := mem_updateGroupOptions _ _ _ _ ch' hch'
  obtain ⟨g, hg, hgid, hopts⟩ := hgr g' hg'
  have hold := hinv ch hch g hg
  show groupOk
    (if alookup s.selections groupId = some optionValue then
      aset s.selections groupId
        (((capturedOptions s.chapters chapterId groupId
            (removeOptionUpdater optionValue)).head?.map RadioOption.value).getD "")
    else s.selections) g'
  by_cases hcond : alookup s.selections groupId = some optionValue
  · rw [if_pos hcond]
    by_cases hk : g.id = groupId
    · -- the addressed group: selection rewritten to the captured fallback
      unfold groupOk
      rw [hgid, hk, alookup_aset_self]
      rcases hopts with ⟨hceq, -, he⟩ | ⟨hno, he⟩
      · -- updater applied: captured equals the filtered options
        rw [capturedOptions_of_located s.chapters chapterId groupId
          (removeOptionUpdater optionValue) hwf ch g hch hg hceq hk]
        cases hrem : removeOptionUpdater optionValue g.options with
        | nil =>
            left
            simp [hrem]
        | cons o os =>
            right
            rw [he, hrem]
            simp
      · -- the group lives in a non-addressed chapter: nothing was captured
        have hnoc : ¬(ch.id = chapterId) := fun hcc => hno ⟨hcc, hk⟩
        have hcap : capturedOptions s.chapters chapterId groupId
            (removeOptionUpdater optionValue) = [] := by
          apply capturedOptions_empty
          intro c hc hcc gg hgg heq
          have hcne : c ≠ ch := by
            intro hee
            exact hnoc (hee ▸ hcc)
          have := groupIds_disjoint_of_nodup s.chapters hwf.2 c hc ch hch hcne gg hgg g hg
          exact this (heq.trans hk.symm)
        rw [hcap]
        left
        simp
    · -- other groups: selection and options untouched
      unfold groupOk at hold ⊢
      rw [hgid, alookup_aset_ne _ _ _ _ hk]
      rcases hopts with ⟨-, hk2, -⟩ | ⟨-, he⟩
      · exact absurd hk2 hk
      · rw [he]
        exact hold
  · rw [if_neg hcond]
    unfold groupOk at hold ⊢
    rw [hgid]
    rcases hopts with ⟨-, hk, he⟩ | ⟨-, he⟩
    · -- options filtered but the stored selection was not the deleted value
      rcases hold with h | h
      · exact Or.inl h
      · by_cases hval : (alookup s.selections g.id).getD "" = ""
        · exact Or.inl hval
        · right
          rw [he]
          cases hlook : alookup s.selections g.id with
          | none =>
              rw [hlook] at hval
              exact absurd rfl hval
          | some w =>
              rw [hlook] at h
              have hwne : w ≠ optionValue := by
                intro hee
                apply hcond
                rw [← hk, hlook, hee]
              obtain ⟨opt, hopt, hoptv⟩ := List.mem_map.mp h
              apply List.mem_map.mpr
              refine ⟨opt, ?_, hoptv⟩
              unfold removeOptionUpdater
              apply List.mem_filter.mpr
              refine ⟨hopt, ?_⟩
              simp [hoptv, hwne]
    · rw [he]
      exact hold

/-- The fallback behaviour of `handleDeleteOption`: deleting the selected
option rewrites the group's selection to its first remaining option, or to
the empty string when none remain. -/
theorem deleteOption_fallback (s : ConfigState)
    (chapterId groupId optionValue : String)
    (hwf : wellFormed s.chapters)
    (ch : ConfiguratorChapter) (g : ConfiguratorGroup)
    (hch : ch ∈ s.chapters) (hg : g ∈ ch.groups)
    (hcid : ch.id = chapterId) (hgid : g.id = groupId)
    (hsel : alookup s.selections groupId = some optionValue) :
    alookup (applySelOp s (.deleteOption chapterId groupId optionValue)).selections groupId
      = some ((((g.options.filter (fun opt => !(opt.value == optionValue))).head?.map
          RadioOption.value).getD "")) := by
  rw [applySelOp_deleteOption_eq]
  show alookup
    (if alookup s.selections groupId = some optionValue then
      aset s.selections groupId
        (((capturedOptions s.chapters chapterId groupId
            (removeOptionUpdater optionValue)).head?.map RadioOption.value).getD "")
    else s.selections) groupId = _
  rw [if_pos hsel, alookup_aset_self,
    capturedOptions_of_located s.chapters chapterId groupId
      (removeOptionUpdater optionValue) hwf ch g hch hg hcid hgid]
  rfl

/-- C7: for a well-formed configuration the selection invariant (every
group's stored selection — a missing key reading as the empty string — is
empty or one of the group's current option values) holds after
initialization and is preserved, together with well-formedness, by every
selection-store operation; and deleting a group's currently selected
option rewrites that selection to the group's first remaining option, or
to the empty string when none remain. -/
theorem selectionStore_invariant :
    (∀ chapters : List ConfiguratorChapter, wellFormed chapters →
      selInvariant (initState chapters))
    ∧ (∀ (s : ConfigState) (op : SelOp), wellFormed s.chapters → selInvariant s →
        opValid s op →
        selInvariant (applySelOp s op) ∧ wellFormed (applySelOp s op).chapters)
    ∧ (∀ (s : ConfigState) (chapterId groupId optionValue : String)
        (ch : ConfiguratorChapter) (g : ConfiguratorGroup),
        wellFormed s.chapters → ch ∈ s.chapters → g ∈ ch.groups →
        ch.id = chapterId → g.id = groupId →
        alookup s.selections groupId = some optionValue →
        alookup (applySelOp s (.deleteOption chapterId groupId optionValue)).selections
            groupId
          = some (((g.options.filter (fun opt => !(opt.value == optionValue))).head?.map
              RadioOption.value).getD "")) := by
  refine ⟨initState_invariant, ?_, ?_⟩
  · intro s op hwf hinv hvalid
    cases op with
    | setSelection groupId value =>
        exact ⟨selInvariant_setSelection s groupId value hinv hvalid, hwf⟩
    | deleteOption chapterId groupId optionValue =>
        exact ⟨selInvariant_deleteOption s chapterId groupId optionValue hwf hinv,
          wellFormed_updateGroupOptions s.chapters chapterId groupId _ hwf⟩
    | deleteGroup chapterId groupId =>
        exact ⟨selInvariant_deleteGroup s chapterId groupId hinv,
          wellFormed_deleteGroup s.chapters chapterId groupId hwf⟩
    | deleteChapter chapterId =>
        exact ⟨selInvariant_deleteChapter s chapterId hinv,
          wellFormed_deleteChapter s.chapters chapterId hwf⟩
    | addOption chapterId groupId newOption =>
        exact ⟨selInvariant_addOption s chapterId groupId newOption hinv,
          wellFormed_updateGroupOptions s.chapters chapterId groupId
            (fun options => options ++ [newOption]) hwf⟩
    | addGroup chapterId newGroupId newOption =>
        exact ⟨selInvariant_addGroup s chapterId newGroupId newOption hinv hvalid,
          wellFormed_addGroup s.chapters chapterId newGroupId newOption hwf hvalid⟩
  · intro s chapterId groupId optionValue ch g hwf hch hg hcid hgid hsel
    exact deleteOption_fallback s chapterId groupId optionValue hwf ch g hch hg hcid
      hgid hsel

/-- A two-option group used to instantiate the selection-store theorem. -/
def c7group : ConfiguratorGroup :=
  { id := "g", options := [{ value := "a" }, { value := "b" }] }

/-- A one-chapter session with option `a` selected. -/
def c7state : ConfigState :=
  { chapters := [{ id := "c", focus := "f", groups := [c7group] }],
    selections := [("g", "a")] }

/-- C7 witness: deleting the selected option `a` keeps the invariant and
falls back to the first remaining option `b`. -/
theorem selectionStore_invariant_witness :
    selInvariant (applySelOp c7state (.deleteOption "c" "g" "a"))
    ∧ alookup (applySelOp c7state (.deleteOption "c" "g" "a")).selections "g"
        = some "b" :=
  ⟨(selectionStore_invariant.2.1 c7state (.deleteOption "c" "g" "a")
      (by unfold wellFormed; exact ⟨by decide, by decide⟩)
      (by unfold selInvariant groupOk; decide) trivial).1,
   by
    have h := selectionStore_invariant.2.2 c7state "c" "g" "a"
      { id := "c", focus := "f", groups := [c7group] } c7group
      (by unfold wellFormed; exact ⟨by decide, by decide⟩)
      (by decide) (by decide) rfl rfl rfl
    simpa using h⟩

/-! ## Camera orchestrator: the per-frame advance of `CameraRig`

Numbers are exact rationals; `useFrame` in Scripted mode (orbit disabled)
is one state-update step. -/

structure SphericalQ where
  radius : ℚ
  phi : ℚ
  theta : ℚ
  deriving DecidableEq, Repr

structure Vec3Q where
  x : ℚ
  y : ℚ
  z : ℚ
  deriving DecidableEq, Repr

/-- The in-flight transition; the source's `end` field is named `endSph`
(`end` is reserved in Lean). -/
structure CameraTransition where
  start : SphericalQ
  endSph : SphericalQ
  duration : ℚ
  progress : ℚ
  active : Bool
  deriving DecidableEq, Repr

structure CameraState where
  spherical : SphericalQ
  transition : CameraTransition
  lookAtCurrent : Vec3Q
  lookAtTarget : Vec3Q
  deriving DecidableEq, Repr

/-- `MathUtils.lerp(x, y, t) = (1 - t) * x + t * y`. -/
def lerp (x y t : ℚ) : ℚ := (1 - t) * x + t * y

/-- `easeOutCubic(t) = 1 - (1 - t)^3`. -/
def easeOutCubic (t : ℚ) : ℚ := 1 - (1 - t) ^ 3

/-- `Vector3.lerp(target, alpha)`: componentwise `v + (target - v) * alpha`. -/
def vec3Lerp (v target : Vec3Q) (alpha : ℚ) : Vec3Q :=
  { x := v.x + (target.x - v.x) * alpha
    y := v.y + (target.y - v.y) * alpha
    z := v.z + (target.z - v.z) * alpha }

/-- One `useFrame` step of `CameraRig` while Scripted: if the tween is
active, advance `progress` by `delta / duration` clamped to 1, set the
spherical pose to the cubic-out-eased componentwise lerp from `start` to
`endSph`, and deactivate the tween exactly at progress 1; in every case
blend the current look-at toward the target look-at by the fixed factor
0.08. -/
def advanceFrame (s : CameraState) (delta : ℚ) : CameraState :=
  let tween := s.transition
  let stepped :=
    if tween.active then
      let progress := min (tween.progress + delta / tween.duration) 1
      let eased := easeOutCubic progress
      let sph : SphericalQ :=
        { radius := lerp tween.start.radius tween.endSph.radius eased
          phi := lerp tween.start.phi tween.endSph.phi eased
          theta := lerp tween.start.theta tween.endSph.theta eased }
      let active := if progress = 1 then false else tween.active
      (sph, { tween with progress := progress, active := active })
    else (s.spherical, tween)
  { spherical := stepped.1
    transition := stepped.2
    lookAtCurrent := vec3Lerp s.lookAtCurrent s.lookAtTarget (8 / 100)
    lookAtTarget := s.lookAtTarget }

/-- C8: while a transition with the scripted duration 1.2s is active, one
frame advances progress by `delta / 1.2` clamped to 1 and sets the
spherical pose componentwise to the lerp from start to end at
`easeOutCubic` of the new progress, deactivating the tween exactly when
progress reaches 1; an inactive transition leaves the spherical pose and
the tween untouched; and every frame, independently of the tween, blends
the look-at point toward its target by the fixed factor 0.08. -/
theorem cameraAdvance_spec (s : CameraState) (delta : ℚ) :
    (s.transition.active = true → s.transition.duration = 6/5 →
      (advanceFrame s delta).transition.progress
          = min (s.transition.progress + delta / (6/5)) 1
      ∧ (advanceFrame s delta).spherical.radius
          = lerp s.transition.start.radius s.transition.endSph.radius
              (easeOutCubic (advanceFrame s delta).transition.progress)
      ∧ (advanceFrame s delta).spherical.phi
          = lerp s.transition.start.phi s.transition.endSph.phi
              (easeOutCubic (advanceFrame s delta).transition.progress)
      ∧ (advanceFrame s delta).spherical.theta
          = lerp s.transition.start.theta s.transition.endSph.theta
              (easeOutCubic (advanceFrame s delta).transition.progress)
      ∧ ((advanceFrame s delta).transition.progress = 1 ↔
          (advanceFrame s delta).transition.active = false))
    ∧ (s.transition.active = false →
        (advanceFrame s delta).spherical = s.spherical
        ∧ (advanceFrame s delta).transition = s.transition)
    ∧ (advanceFrame s delta).lookAtCurrent
        = vec3Lerp s.lookAtCurrent s.lookAtTarget (8/100)
    ∧ (advanceFrame s delta).lookAtTarget = s.lookAtTarget := by
  refine ⟨?_, ?_, ?_, ?_⟩
  · intro ha hd
    simp only [advanceFrame, ha, if_true, hd]
    by_cases hp : min (s.transition.progress + delta / (6/5)) 1 = 1
    · simp [hp]
    · simp [hp]
  · intro ha
    simp only [advanceFrame, ha]
    simp
  · simp [advanceFrame]
  · simp [advanceFrame]

/-- A concrete camera state in mid-transition. -/
def camState0 : CameraState :=
  { spherical := { radius := 1, phi := 1, theta := 1 }
    transition :=
      { start := { radius := 2, phi := 0, theta := 0 }
        endSph := { radius := 4, phi := 2, theta := 6 }
        duration := 6/5, progress := 0, active := true }
    lookAtCurrent := { x := 0, y := 0, z := 0 }
    lookAtTarget := { x := 1, y := 1, z := 1 } }

/-- C8 witness: one frame of 0.6s on an active 1.2s transition advances
progress to 1/2 and applies the eased pose and the look-at blend. -/
theorem cameraAdvance_spec_witness :
    (advanceFrame camState0 (3/5)).transition.progress
        = min (camState0.transition.progress + (3/5) / (6/5)) 1
    ∧ (advanceFrame camState0 (3/5)).spherical.radius
        = lerp camState0.transition.start.radius camState0.transition.endSph.radius
            (easeOutCubic (advanceFrame camState0 (3/5)).transition.progress)
    ∧ (advanceFrame camState0 (3/5)).lookAtCurrent
        = vec3Lerp camState0.lookAtCurrent camState0.lookAtTarget (8/100) :=
  ⟨((cameraAdvance_spec camState0 (3/5)).1 rfl rfl).1,
   ((cameraAdvance_spec camState0 (3/5)).1 rfl rfl).2.1,
   (cameraAdvance_spec camState0 (3/5)).2.2.1⟩

/-! ## Keep-view persistence and pose derivation (exact reals)

`handleKeepCurrentView` converts the live orbit pose to spherical form
around its target (three.js `Spherical.setFromVector3`) and stores it;
`deriveCameraFromFocus` rebuilds the pose (`Vector3.setFromSpherical`).
`Math.atan2(y, x)` is modelled as the complex argument of `x + y*i`,
which matches its branch conventions on the reals. -/

structure Vec3R where
  x : ℝ
  y : ℝ
  z : ℝ

structure FocusTargetConfig where
  radius : ℝ
  polarDeg : ℝ
  azimuthDeg : ℝ
  lookAt : Vec3R

noncomputable def mathAtan2 (y x : ℝ) : ℝ := Complex.arg { re := x, im := y }

/-- `MathUtils.clamp(value, min, max)`. -/
noncomputable def clampR (value lo hi : ℝ) : ℝ := max lo (min hi value)

structure SphericalR where
  radius : ℝ
  phi : ℝ
  theta : ℝ

/-- `Spherical.setFromVector3` (three.js): radius is the euclidean norm;
at radius 0 both angles are 0, otherwise `theta = atan2(x, z)` and
`phi = acos(clamp(y / radius, -1, 1))`. -/
noncomputable def sphericalFromVector3 (v : Vec3R) : SphericalR :=
  if Real.sqrt (v.x * v.x + v.y * v.y + v.z * v.z) = 0 then
    { radius := Real.sqrt (v.x * v.x + v.y * v.y + v.z * v.z), phi := 0, theta := 0 }
  else
    { radius := Real.sqrt (v.x * v.x + v.y * v.y + v.z * v.z)
      phi := Real.arccos
        (clampR (v.y / Real.sqrt (v.x * v.x + v.y * v.y + v.z * v.z)) (-1) 1)
      theta := mathAtan2 v.x v.z }

/-- `Vector3.setFromSpherical` (three.js):
`(sin phi * radius * sin theta, cos phi * radius, sin phi * radius * cos theta)`. -/
noncomputable def vectorFromSpherical (s : SphericalR) : Vec3R :=
  { x := Real.sin s.phi * s.radius * Real.sin s.theta
    y := Real.cos s.phi * s.radius
    z := Real.sin s.phi * s.radius * Real.cos s.theta }

noncomputable def radToDeg (rad : ℝ) : ℝ := rad * (180 / Real.pi)

noncomputable def degToRad (deg : ℝ) : ℝ := deg * (Real.pi / 180)

def vsub (a b : Vec3R) : Vec3R := { x := a.x - b.x, y := a.y - b.y, z := a.z - b.z }

def vadd (a b : Vec3R) : Vec3R := { x := a.x + b.x, y := a.y + b.y, z := a.z + b.z }

/-- `handleKeepCurrentView`: converts the live orbit `(position, target)`
into spherical form around `target` and persists it as the focus target of
the active focus key (radius, polar and azimuth in degrees, lookAt). -/
noncomputable def handleKeepCurrentView (cfgs : List (String × FocusTargetConfig))
    (activeFocusKey : String) (position target : Vec3R) :
    List (String × FocusTargetConfig) :=
  let offset := vsub position target
  let spherical := sphericalFromVector3 offset
  aset cfgs activeFocusKey
    { radius := spherical.radius
      polarDeg := radToDeg spherical.phi
      azimuthDeg := radToDeg spherical.theta
      lookAt := target }

/-- `deriveCameraFromFocus`: rebuilds `(position, target)` from a stored
focus-target config; `position = lookAt + offset(spherical)`. -/
noncomputable def deriveCameraFromFocus (cfgs : List (String × FocusTargetConfig))
    (focusKey : String) : Option (Vec3R × Vec3R) :=
  match alookup cfgs focusKey with
  | none => none
  | some targetConfig =>
      some
        (vadd targetConfig.lookAt
          (vectorFromSpherical
            { radius := targetConfig.radius
              phi := degToRad targetConfig.polarDeg
              theta := degToRad targetConfig.azimuthDeg }),
         targetConfig.lookAt)

theorem degToRad_radToDeg (a : ℝ) : degToRad (radToDeg a) = a := by
  unfold degToRad radToDeg
  field_simp

/-- The spherical-coordinate round trip of three.js reproduces the vector
exactly (over the reals), including the zero vector. -/
theorem vectorFromSpherical_sphericalFromVector3 (v : Vec3R) :
    vectorFromSpherical (sphericalFromVector3 v) = v := by
  obtain ⟨x, y, z⟩ := v
  have hsum : (0:ℝ) ≤ x * x + y * y + z * z :=
    add_nonneg (add_nonneg (mul_self_nonneg x) (mul_self_nonneg y)) (mul_self_nonneg z)
  by_cases hr : Real.sqrt (x * x + y * y + z * z) = 0
  · have hzero : x * x + y * y + z * z ≤ 0 := Real.sqrt_eq_zero'.mp hr
    have hx : x = 0 := by nlinarith [mul_self_nonneg x, mul_self_nonneg y, mul_self_nonneg z]
    have hy : y = 0 := by nlinarith [mul_self_nonneg x, mul_self_nonneg y, mul_self_nonneg z]
    have hz : z = 0 := by nlinarith [mul_self_nonneg x, mul_self_nonneg y, mul_self_nonneg z]
    subst hx
    subst hy
    subst hz
    unfold sphericalFromVector3 vectorFromSpherical
    simp
  · have hrpos : 0 < Real.sqrt (x * x + y * y + z * z) :=
      lt_of_le_of_ne (Real.sqrt_nonneg _) (Ne.symm hr)
    unfold sphericalFromVector3
    rw [if_neg hr]
    unfold vectorFromSpherical
    set r := Real.sqrt (x * x + y * y + z * z) with hrdef
    have hr2 : r ^ 2 = x * x + y * y + z * z := Real.sq_sqrt hsum
    have hrne : r ≠ 0 := ne_of_gt hrpos
    have hyabs : |y| ≤ r := by
      have h1 : Real.sqrt (y ^ 2) ≤ r := Real.sqrt_le_sqrt (by nlinarith)
      rwa [Real.sqrt_sq_eq_abs] at h1
    have hub : y / r ≤ 1 := (div_le_one hrpos).mpr (abs_le.mp hyabs).2
    have hlb : (-1 : ℝ) ≤ y / r := by
      rw [le_div_iff₀ hrpos]
      have := (abs_le.mp hyabs).1
      linarith
    have hclamp : clampR (y / r) (-1) 1 = y / r := by
      unfold clampR
      rw [min_eq_right hub, max_eq_right hlb]
    have hcos : Real.cos (Real.arccos (clampR (y / r) (-1) 1)) = y / r := by
      rw [hclamp]
      exact Real.cos_arccos hlb hub
    have hxznn : (0:ℝ) ≤ x * x + z * z :=
      add_nonneg (mul_self_nonneg x) (mul_self_nonneg z)
    have hsinval : Real.sin (Real.arccos (clampR (y / r) (-1) 1)) * r
        = Real.sqrt (x * x + z * z) := by
      rw [hclamp, Real.sin_arccos]
      have h4 : 1 - (y / r) ^ 2 = (x * x + z * z) / r ^ 2 := by
        field_simp
        nlinarith [hr2]
      rw [h4, Real.sqrt_div' (x * x + z * z) (by positivity : (0:ℝ) ≤ r ^ 2),
        Real.sqrt_sq hrpos.le, div_mul_cancel₀ _ hrne]
    simp only [Vec3R.mk.injEq]
    refine ⟨?_, ?_, ?_⟩
    · -- x component
      rw [hsinval]
      by_cases hxz : x * x + z * z = 0
      · have hx0 : x = 0 := by nlinarith [mul_self_nonneg x, mul_self_nonneg z]
        rw [hxz, Real.sqrt_zero, zero_mul, hx0]
      · unfold mathAtan2
        rw [Complex.sin_arg, Complex.abs_apply, Complex.normSq_mk]
        have hcomm : z * z + x * x = x * x + z * z := by ring
        rw [hcomm]
        have hsne : Real.sqrt (x * x + z * z) ≠ 0 := by
          rw [Ne, Real.sqrt_eq_zero' ]
          intro hle
          exact hxz (le_antisymm hle hxznn)
        field_simp
    · -- y component
      rw [hcos, div_mul_cancel₀ _ hrne]
    · -- z component
      rw [hsinval]
      by_cases hxz : x * x + z * z = 0
      · have hz0 : z = 0 := by nlinarith [mul_self_nonneg x, mul_self_nonneg z]
        rw [hxz, Real.sqrt_zero, zero_mul, hz0]
      · unfold mathAtan2
        have hne : ({ re := z, im := x } : ℂ) ≠ 0 := by
          intro hh
          rw [Complex.ext_iff] at hh
          simp only [Complex.zero_re, Complex.zero_im] at hh
          apply hxz
          rw [hh.1, hh.2]
          ring
        rw [Complex.cos_arg hne, Complex.abs_apply, Complex.normSq_mk]
        have hcomm : z * z + x * x = x * x + z * z := by ring
        rw [hcomm]
        have hsne : Real.sqrt (x * x + z * z) ≠ 0 := by
          rw [Ne, Real.sqrt_eq_zero']
          intro hle
          exact hxz (le_antisymm hle hxznn)
        field_simp

/-- C9: keep-view round trip — persisting the live manual pose
`(position, target)` for the active focus key and re-deriving the camera
from the stored focus target reproduces `(position, target)` exactly. -/
theorem keepCurrentView_roundTrip (cfgs : List (String × FocusTargetConfig))
    (activeFocusKey : String) (position target : Vec3R) :
    deriveCameraFromFocus (handleKeepCurrentView cfgs activeFocusKey position target)
        activeFocusKey = some (position, target) := by
  unfold handleKeepCurrentView deriveCameraFromFocus
  rw [alookup_aset_self]
  show some
      (vadd target
        (vectorFromSpherical
          { radius := (sphericalFromVector3 (vsub position target)).radius
            phi := degToRad (radToDeg (sphericalFromVector3 (vsub position target)).phi)
            theta := degToRad (radToDeg (sphericalFromVector3 (vsub position target)).theta) }),
       target)
      = some (position, target)
  rw [degToRad_radToDeg, degToRad_radToDeg]
  have hsph : ({ radius := (sphericalFromVector3 (vsub position target)).radius
                 phi := (sphericalFromVector3 (vsub position target)).phi
                 theta := (sphericalFromVector3 (vsub position target)).theta } : SphericalR)
      = sphericalFromVector3 (vsub position target) := rfl
  rw [hsph, vectorFromSpherical_sphericalFromVector3]
  obtain ⟨px, py, pz⟩ := position
  obtain ⟨tx, ty, tz⟩ := target
  unfold vadd vsub
  simp only [Option.some_inj, Prod.mk.injEq, Vec3R.mk.injEq]
  exact ⟨⟨by ring, by ring, by ring⟩, trivial⟩

/-! ## Focus tracker (`handleScroll`)

The DOM is abstracted to a measured vertical extent per chapter (the first
visible element carrying the chapter's id, or none); the marker line sits
at 35% of the viewport height. -/

structure ChapterView where
  id : String
  focus : String
  rect : Option (ℚ × ℚ)
  deriving DecidableEq, Repr

/-- Distance from a rect's vertical midpoint to the marker line. -/
def midDist (markerY : ℚ) (rect : ℚ × ℚ) : ℚ := |(rect.1 + rect.2) / 2 - markerY|

/-- One step of the closest-chapter scan: an unmeasured chapter is
skipped; a measured one wins exactly when strictly closer than the best
so far (`dist < closestDist`). -/
def pickStep (markerY : ℚ) (acc : Option (ChapterView × ℚ))
    (chapter : ChapterView) : Option (ChapterView × ℚ) :=
  match chapter.rect with
  | none => acc
  | some rect =>
      match acc with
      | none => some (chapter, midDist markerY rect)
      | some best =>
          if midDist markerY rect < best.2 then some (chapter, midDist markerY rect)
          else acc

/-- The scan of `handleScroll` over the ordered chapters (`closestDist`
starts at infinity, modelled by the empty accumulator). -/
def pickClosest (chapters : List ChapterView) (markerY : ℚ) :
    Option (ChapterView × ℚ) :=
  chapters.foldl (pickStep markerY) none

structure ScrollState where
  focusRef : String
  activeChapterId : String
  deriving DecidableEq, Repr

/-- `if (next && next !== prev) { prev = next; emit next }`. -/
def emitStep (next : Option String) (prev : String) : String × Option String :=
  match next with
  | some v => if v ≠ "" ∧ v ≠ prev then (v, some v) else (prev, none)
  | none => (prev, none)

/-- One run of the scroll handler: find the chapter whose measured
midpoint is closest to the 35% marker, then update/emit the focus key and
the active chapter id only when truthy and changed. -/
def handleScroll (st : ScrollState) (chapters : List ChapterView)
    (innerHeight : ℚ) : ScrollState × Option String × Option String :=
  let markerY := innerHeight * (35 / 100)
  let picked := pickClosest chapters markerY
  let focusStep := emitStep (picked.map (fun p => p.1.focus)) st.focusRef
  let chapterStep := emitStep (picked.map (fun p => p.1.id)) st.activeChapterId
  ({ focusRef := focusStep.1, activeChapterId := chapterStep.1 },
   focusStep.2, chapterStep.2)

theorem emitStep_spec (next : Option String) (prev : String) (v : String)
    (h : (emitStep next prev).2 = some v) :
    v ≠ prev ∧ next = some v ∧ (emitStep next prev).1 = v := by
  cases next with
  | none =>
      have hred : emitStep none prev = (prev, none) := rfl
      rw [hred] at h
      cases h
  | some u =>
      by_cases hc : u ≠ "" ∧ u ≠ prev
      · have hred : emitStep (some u) prev = (u, some u) := by
          show (if u ≠ "" ∧ u ≠ prev then (u, some u) else (prev, none)) = (u, some u)
          rw [if_pos hc]
        rw [hred] at h
        obtain rfl : u = v := by simpa using h
        exact ⟨hc.2, rfl, by rw [hred]⟩
      · have hred : emitStep (some u) prev = (prev, none) := by
          show (if u ≠ "" ∧ u ≠ prev then (u, some u) else (prev, none)) = (prev, none)
          rw [if_neg hc]
        rw [hred] at h
        cases h

/-- Characterization of the fold: the winner is a measured chapter
strictly closer than everything before it (and than the incoming
accumulator) and at least as close as everything after it. -/
theorem pickClosest_go (markerY : ℚ) (chapters : List ChapterView) :
    ∀ (acc : Option (ChapterView × ℚ)) (c : ChapterView) (d : ℚ),
      chapters.foldl (pickStep markerY) acc = some (c, d) →
      (acc = some (c, d)
        ∧ ∀ c' ∈ chapters, ∀ r', c'.rect = some r' → d ≤ midDist markerY r')
      ∨ (∃ pre post rect, chapters = pre ++ c :: post ∧ c.rect = some rect
          ∧ d = midDist markerY rect
          ∧ (∀ p : ChapterView × ℚ, acc = some p → d < p.2)
          ∧ (∀ c' ∈ pre, ∀ r', c'.rect = some r' → d < midDist markerY r')
          ∧ (∀ c' ∈ post, ∀ r', c'.rect = some r' → d ≤ midDist markerY r')) := by
  induction chapters with
  | nil =>
      intro acc c d h
      left
      refine ⟨h, ?_⟩
      intro c' hc'
      cases hc'
  | cons ch rest ih =>
      intro acc c d h
      rw [List.foldl_cons] at h
      cases hrect : ch.rect with
      | none =>
          have hstep : pickStep markerY acc ch = acc := by
            unfold pickStep
            rw [hrect]
          rw [hstep] at h
          rcases ih acc c d h with ⟨h1, h2⟩ |
            ⟨pre, post, rect, hsplit, hcr, hd, hacc, hpre, hpost⟩
          · left
            refine ⟨h1, ?_⟩
            intro c' hc' r' hr'
            rcases List.mem_cons.mp hc' with rfl | hc''
            · rw [hrect] at hr'
              cases hr'
            · exact h2 c' hc'' r' hr'
          · right
            refine ⟨ch :: pre, post, rect, by rw [hsplit, List.cons_append], hcr, hd,
              hacc, ?_, hpost⟩
            intro c' hc' r' hr'
            rcases List.mem_cons.mp hc' with rfl | hc''
            · rw [hrect] at hr'
              cases hr'
            · exact hpre c' hc'' r' hr'
      | some r =>
          cases acc with
          | none =>
              have hstep : pickStep markerY none ch = some (ch, midDist markerY r) := by
                unfold pickStep
                rw [hrect]
              rw [hstep] at h
              rcases ih _ c d h with ⟨h1, h2⟩ |
                ⟨pre, post, rect, hsplit, hcr, hd, hacc, hpre, hpost⟩
              · obtain ⟨rfl, rfl⟩ : ch = c ∧ midDist markerY r = d := by simpa using h1
                right
                refine ⟨[], rest, r, rfl, hrect, rfl, ?_, ?_, h2⟩
                · rintro p hp
                  cases hp
                · rintro c' hc'
                  cases hc'
              · right
                refine ⟨ch :: pre, post, rect, by rw [hsplit, List.cons_append], hcr, hd,
                  ?_, ?_, hpost⟩
                · rintro p hp
                  cases hp
                · intro c' hc' r' hr'
                  rcases List.mem_cons.mp hc' with rfl | hc''
                  · rw [hrect] at hr'
                    obtain rfl : r = r' := by simpa using hr'
                    exact hacc (c', midDist markerY r) rfl
                  · exact hpre c' hc'' r' hr'
          | some best =>
              by_cases hlt : midDist markerY r < best.2
              · have hstep : pickStep markerY (some best) ch
                    = some (ch, midDist markerY r) := by
                  unfold pickStep
                  rw [hrect]
                  simp [hlt]
                rw [hstep] at h
                rcases ih _ c d h with ⟨h1, h2⟩ |
                  ⟨pre, post, rect, hsplit, hcr, hd, hacc, hpre, hpost⟩
                · obtain ⟨rfl, rfl⟩ : ch = c ∧ midDist markerY r = d := by simpa using h1
                  right
                  refine ⟨[], rest, r, rfl, hrect, rfl, ?_, ?_, h2⟩
                  · rintro p hp
                    obtain rfl : best = p := by simpa using hp
                    exact hlt
                  · rintro c' hc'
                    cases hc'
                · right
                  refine ⟨ch :: pre, post, rect, by rw [hsplit, List.cons_append], hcr,
                    hd, ?_, ?_, hpost⟩
                  · rintro p hp
                    obtain rfl : best = p := by simpa using hp
                    exact lt_trans (hacc (ch, midDist markerY r) rfl) hlt
                  · intro c' hc' r' hr'
                    rcases List.mem_cons.mp hc' with rfl | hc''
                    · rw [hrect] at hr'
                      obtain rfl : r = r' := by simpa using hr'
                      exact hacc (c', midDist markerY r) rfl
                    · exact hpre c' hc'' r' hr'
              · have hstep : pickStep markerY (some best) ch = some best := by
                  unfold pickStep
                  rw [hrect]
                  simp [hlt]
                rw [hstep] at h
                rcases ih _ c d h with ⟨h1, h2⟩ |
                  ⟨pre, post, rect, hsplit, hcr, hd, hacc, hpre, hpost⟩
                · left
                  obtain rfl : best = (c, d) := by simpa using h1
                  refine ⟨rfl, ?_⟩
                  intro c' hc' r' hr'
                  rcases List.mem_cons.mp hc' with rfl | hc''
                  · rw [hrect] at hr'
                    obtain rfl : r = r' := by simpa using hr'
                    exact not_lt.mp hlt
                  · exact h2 c' hc'' r' hr'
                · right
                  refine ⟨ch :: pre, post, rect, by rw [hsplit, List.cons_append], hcr,
                    hd, ?_, ?_, hpost⟩
                  · rintro p hp
                    obtain rfl : best = p := by simpa using hp
                    exact hacc best rfl
                  · intro c' hc' r' hr'
                    rcases List.mem_cons.mp hc' with rfl | hc''
                    · rw [hrect] at hr'
                      obtain rfl : r = r' := by simpa using hr'
                      exact lt_of_lt_of_le (hacc best rfl) (not_lt.mp hlt)
                    · exact hpre c' hc'' r' hr'

/-- C10: the focus tracker picks the measured chapter whose extent
midpoint is closest to the 35% marker line, breaking ties in favour of
the earliest chapter in canonical order; and it emits a focus key or an
active chapter id only when the picked value differs from the previously
stored one (updating the stored value to the emitted one). -/
theorem handleScroll_spec (st : ScrollState) (chapters : List ChapterView)
    (innerHeight : ℚ) :
    (∀ (c : ChapterView) (d : ℚ),
      pickClosest chapters (innerHeight * (35/100)) = some (c, d) →
      ∃ pre post rect, chapters = pre ++ c :: post ∧ c.rect = some rect
        ∧ d = midDist (innerHeight * (35/100)) rect
        ∧ (∀ c' ∈ pre, ∀ r', c'.rect = some r' →
            d < midDist (innerHeight * (35/100)) r')
        ∧ (∀ c' ∈ post, ∀ r', c'.rect = some r' →
            d ≤ midDist (innerHeight * (35/100)) r'))
    ∧ (∀ f, (handleScroll st chapters innerHeight).2.1 = some f →
        f ≠ st.focusRef
        ∧ (pickClosest chapters (innerHeight * (35/100))).map (fun p => p.1.focus)
            = some f
        ∧ (handleScroll st chapters innerHeight).1.focusRef = f)
    ∧ (∀ cid, (handleScroll st chapters innerHeight).2.2 = some cid →
        cid ≠ st.activeChapterId
        ∧ (pickClosest chapters (innerHeight * (35/100))).map (fun p => p.1.id)
            = some cid
        ∧ (handleScroll st chapters innerHeight).1.activeChapterId = cid) := by
  refine ⟨?_, ?_, ?_⟩
  · intro c d h
    rcases pickClosest_go (innerHeight * (35/100)) chapters none c d h with ⟨h1, -⟩ |
      ⟨pre, post, rect, hsplit, hcr, hd, -, hpre, hpost⟩
    · cases h1
    · exact ⟨pre, post, rect, hsplit, hcr, hd, hpre, hpost⟩
  · intro f hf
    have hf' : (emitStep ((pickClosest chapters (innerHeight * (35/100))).map
        (fun p => p.1.focus)) st.focusRef).2 = some f := hf
    obtain ⟨hne, hnext, hupd⟩ := emitStep_spec _ _ _ hf'
    exact ⟨hne, hnext, hupd⟩
  · intro cid hc
    have hc' : (emitStep ((pickClosest chapters (innerHeight * (35/100))).map
        (fun p => p.1.id)) st.activeChapterId).2 = some cid := hc
    obtain ⟨hne, hnext, hupd⟩ := emitStep_spec _ _ _ hc'
    exact ⟨hne, hnext, hupd⟩

/-- Two measured chapters used to instantiate the focus tracker theorem. -/
def c10chapters : List ChapterView :=
  [{ id := "c1", focus := "f1", rect := some (0, 100) },
   { id := "c2", focus := "f2", rect := some (200, 300) }]

/-- C10 witness: with viewport height 200 the marker sits at 70; chapter
`c1` (midpoint 50) beats `c2` (midpoint 250), and from a blank state both
the focus key and the chapter id are emitted. -/
theorem handleScroll_spec_witness :
    (∃ pre post rect, c10chapters
          = pre ++ ({ id := "c1", focus := "f1", rect := some (0, 100) } : ChapterView)
              :: post
        ∧ ({ id := "c1", focus := "f1", rect := some (0, 100) } : ChapterView).rect
            = some rect
        ∧ (20 : ℚ) = midDist ((200 : ℚ) * (35/100)) rect
        ∧ (∀ c' ∈ pre, ∀ r', ChapterView.rect c' = some r' →
            (20 : ℚ) < midDist ((200 : ℚ) * (35/100)) r')
        ∧ (∀ c' ∈ post, ∀ r', ChapterView.rect c' = some r' →
            (20 : ℚ) ≤ midDist ((200 : ℚ) * (35/100)) r'))
    ∧ ("f1" ≠ (⟨"", ""⟩ : ScrollState).focusRef
        ∧ (pickClosest c10chapters ((200 : ℚ) * (35/100))).map (fun p => p.1.focus)
            = some "f1"
        ∧ (handleScroll ⟨"", ""⟩ c10chapters 200).1.focusRef = "f1") :=
  ⟨(handleScroll_spec ⟨"", ""⟩ c10chapters 200).1
      { id := "c1", focus := "f1", rect := some (0, 100) } 20
      (by norm_num [pickClosest, pickStep, c10chapters, midDist]),
   (handleScroll_spec ⟨"", ""⟩ c10chapters 200).2.1 "f1"
      (by
        norm_num [handleScroll, emitStep, pickClosest, pickStep, c10chapters, midDist]
        simp)⟩

end Configurator
